import Mathlib

/-!
Verification of the caching bucket layer
(`vendor/github.com/thanos-io/thanos/pkg/store/cache/caching_bucket.go`).

The Go code is shallowly embedded: pure helpers become Lean functions on
`Int` / `List`, byte strings become `List Nat`, Go `string` values that the
key codec inspects character by character become `List Char`, and the
stateful range engine becomes explicit state passing over an
offset-indexed view of the cache.  Go's `int64` division is truncated
division; every division in the embedded code has non-negative operands,
where truncated and Euclidean division agree, so Lean's `/` on `Int`
(Euclidean) is a faithful translation at every call site reached.
-/

namespace CachingBucket

/-- Byte range `[start, end)`; Go struct `rng` (caching_bucket.go:399-401). -/
structure Rng where
  start : Int
  end_ : Int
deriving DecidableEq, Repr

/-- Total covered byte length of a list of ranges. -/
def totalLen (l : List Rng) : Int := (l.map fun r => r.end_ - r.start).sum

@[simp] theorem totalLen_nil : totalLen [] = 0 := rfl

@[simp] theorem totalLen_cons (a : Rng) (l : List Rng) :
    totalLen (a :: l) = (a.end_ - a.start) + totalLen l := by
  simp [totalLen]

/-- The input is sorted by start and non-overlapping (each range ends before
the next one starts). -/
def sortedDisjoint (l : List Rng) : Prop :=
  List.Chain' (fun a b => a.end_ ≤ b.start) l

/-- Every range in the list is well formed (`start ≤ end`). -/
def wfRng (l : List Rng) : Prop := ∀ r ∈ l, r.start ≤ r.end_

instance (l : List Rng) : Decidable (sortedDisjoint l) :=
  inferInstanceAs (Decidable (List.Chain' (fun (a b : Rng) => a.end_ ≤ b.start) l))

instance (l : List Rng) : Decidable (wfRng l) :=
  inferInstanceAs (Decidable (∀ r ∈ l, r.start ≤ r.end_))

/-- One pass of the Go `mergeRanges` loop (caching_bucket.go:492-500): `cur`
is the range currently being accumulated (`input[last]` in the Go code) and
the list argument is the not-yet-visited remainder of the input.  When the
next range starts within `limit` bytes of `cur`'s end it is folded into
`cur` (Go: `input[last].end = input[ix].end`), otherwise `cur` is emitted
and the next range starts a new accumulator. -/
def mergeAcc (limit : Int) (cur : Rng) : List Rng → List Rng
  | [] => [cur]
  | r :: rs =>
    if r.start - cur.end_ ≤ limit then mergeAcc limit ⟨cur.start, r.end_⟩ rs
    else cur :: mergeAcc limit r rs

/-- Functional model of Go `mergeRanges` (caching_bucket.go:487-502): merges
ranges that are within `limit` bytes of each other, walking the list once. -/
def mergeRanges (input : List Rng) (limit : Int) : List Rng :=
  match input with
  | [] => []
  | r :: rs => mergeAcc limit r rs

theorem mergeAcc_head (limit : Int) :
    ∀ (l : List Rng) (cur : Rng),
      ∃ h t, mergeAcc limit cur l = h :: t ∧ h.start = cur.start := by
  intro l
  induction l with
  | nil => intro cur; exact ⟨cur, [], rfl, rfl⟩
  | cons r rs ih =>
    intro cur
    by_cases hm : r.start - cur.end_ ≤ limit
    · obtain ⟨h, t, heq, hs⟩ := ih ⟨cur.start, r.end_⟩
      exact ⟨h, t, by simp [mergeAcc, hm, heq], hs⟩
    · exact ⟨cur, mergeAcc limit r rs, by simp [mergeAcc, hm], rfl⟩

/-- Consecutive ranges in the merged output are always more than `limit`
bytes apart (this is what makes the merge maximal, and holds for every
input). -/
theorem mergeAcc_chain_gap (limit : Int) :
    ∀ (l : List Rng) (cur : Rng),
      List.Chain' (fun a b => limit < b.start - a.end_) (mergeAcc limit cur l) := by
  intro l
  induction l with
  | nil => intro cur; simp [mergeAcc]
  | cons r rs ih =>
    intro cur
    by_cases hm : r.start - cur.end_ ≤ limit
    · simpa [mergeAcc, hm] using ih ⟨cur.start, r.end_⟩
    · obtain ⟨h, t, heq, hs⟩ := mergeAcc_head limit rs r
      have := ih r
      rw [heq] at this
      simp only [mergeAcc, hm, if_false]
      rw [heq, List.chain'_cons]
      exact ⟨by rw [hs]; omega, this⟩

/-- A list whose consecutive gaps all exceed `limit` is left unchanged by
the merging pass. -/
theorem mergeAcc_fixpoint (limit : Int) :
    ∀ (l : List Rng) (cur : Rng),
      List.Chain' (fun a b => limit < b.start - a.end_) (cur :: l) →
      mergeAcc limit cur l = cur :: l := by
  intro l
  induction l with
  | nil => intro cur _; rfl
  | cons r rs ih =>
    intro cur hch
    rw [List.chain'_cons] at hch
    have hm : ¬(r.start - cur.end_ ≤ limit) := by omega
    simp [mergeAcc, hm, ih r hch.2]

/-- Merging is idempotent, for every input and tolerance. -/
theorem mergeRanges_idem (input : List Rng) (limit : Int) :
    mergeRanges (mergeRanges input limit) limit = mergeRanges input limit := by
  cases input with
  | nil => rfl
  | cons r rs =>
    show mergeRanges (mergeAcc limit r rs) limit = mergeAcc limit r rs
    obtain ⟨h, t, heq, -⟩ := mergeAcc_head limit rs r
    have hch := mergeAcc_chain_gap limit rs r
    rw [heq] at hch ⊢
    exact mergeAcc_fixpoint limit t h hch

/-- For sorted non-overlapping well-formed input, the merged output is well
formed and covers at least the input's total byte length. -/
theorem mergeAcc_wf_len (limit : Int) :
    ∀ (l : List Rng) (cur : Rng),
      List.Chain' (fun a b => a.end_ ≤ b.start) (cur :: l) →
      (∀ r ∈ cur :: l, r.start ≤ r.end_) →
      (∀ r ∈ mergeAcc limit cur l, r.start ≤ r.end_) ∧
        totalLen (cur :: l) ≤ totalLen (mergeAcc limit cur l) := by
  intro l
  induction l with
  | nil =>
    intro cur _ hwf
    exact ⟨by simpa [mergeAcc] using hwf cur (by simp), by simp [mergeAcc]⟩
  | cons r rs ih =>
    intro cur hch hwf
    rw [List.chain'_cons] at hch
    have hcr : cur.end_ ≤ r.start := hch.1
    have hcur : cur.start ≤ cur.end_ := hwf cur (by simp)
    have hr : r.start ≤ r.end_ := hwf r (by simp)
    by_cases hm : r.start - cur.end_ ≤ limit
    · have hch' : List.Chain' (fun a b => a.end_ ≤ b.start)
          ((⟨cur.start, r.end_⟩ : Rng) :: rs) := by
        rw [List.chain'_cons'] at hch ⊢
        exact ⟨fun b hb => hch.2.1 b hb, hch.2.2⟩
      have hwf' : ∀ x ∈ (⟨cur.start, r.end_⟩ : Rng) :: rs, x.start ≤ x.end_ := by
        intro x hx
        rcases List.mem_cons.mp hx with h | h
        · subst h; show cur.start ≤ r.end_; omega
        · exact hwf x (by simp [h])
      obtain ⟨h1, h2⟩ := ih ⟨cur.start, r.end_⟩ hch' hwf'
      refine ⟨by simpa [mergeAcc, hm] using h1, ?_⟩
      have : totalLen (cur :: r :: rs) ≤
          totalLen ((⟨cur.start, r.end_⟩ : Rng) :: rs) := by
        simp only [totalLen_cons]
        omega
      simpa [mergeAcc, hm] using le_trans this h2
    · obtain ⟨h1, h2⟩ := ih r hch.2 (fun x hx => hwf x (by simp [hx]))
      constructor
      · intro x hx
        simp only [mergeAcc, hm, if_false] at hx
        rcases List.mem_cons.mp hx with h | h
        · subst h; exact hcur
        · exact h1 x h
      · simp only [totalLen_cons] at h2 ⊢
        simp only [mergeAcc, hm, if_false, totalLen_cons]
        omega

/-- C4: for every sorted, non-overlapping list of gaps and every tolerance
`t ≥ 0`, `mergeRanges` is idempotent and its output is sorted,
non-overlapping, well formed, and covers a total byte length at least that
of the input. -/
theorem mergeRanges_C4 (gaps : List Rng) (t : Int) (ht : 0 ≤ t)
    (hs : sortedDisjoint gaps) (hwf : wfRng gaps) :
    mergeRanges (mergeRanges gaps t) t = mergeRanges gaps t ∧
      sortedDisjoint (mergeRanges gaps t) ∧
      wfRng (mergeRanges gaps t) ∧
      totalLen gaps ≤ totalLen (mergeRanges gaps t) := by
  have h1 := mergeRanges_idem gaps t
  cases gaps with
  | nil =>
    exact ⟨h1, by simp [mergeRanges, sortedDisjoint], by simp [mergeRanges, wfRng],
      by simp [mergeRanges]⟩
  | cons r rs =>
    have hgap := mergeAcc_chain_gap t rs r
    have hwl := mergeAcc_wf_len t rs r hs hwf
    exact ⟨h1, hgap.imp (fun h => by omega), hwl.1, hwl.2⟩

/-- Witness for `mergeRanges_C4` at a concrete input. -/
theorem mergeRanges_C4_witness :
    mergeRanges (mergeRanges [⟨0, 2⟩, ⟨2, 3⟩, ⟨7, 9⟩] 1) 1 =
        mergeRanges [⟨0, 2⟩, ⟨2, 3⟩, ⟨7, 9⟩] 1 ∧
      sortedDisjoint (mergeRanges [⟨0, 2⟩, ⟨2, 3⟩, ⟨7, 9⟩] 1) ∧
      wfRng (mergeRanges [⟨0, 2⟩, ⟨2, 3⟩, ⟨7, 9⟩] 1) ∧
      totalLen [⟨0, 2⟩, ⟨2, 3⟩, ⟨7, 9⟩] ≤
        totalLen (mergeRanges [⟨0, 2⟩, ⟨2, 3⟩, ⟨7, 9⟩] 1) :=
  mergeRanges_C4 [⟨0, 2⟩, ⟨2, 3⟩, ⟨7, 9⟩] 1 (by decide)
    (by simp [sortedDisjoint, List.chain'_cons, List.chain'_singleton]) (by decide)

/-! The doubling-tolerance merge loop of `fetchMissingSubranges`
(caching_bucket.go:415-419):

    missing = mergeRanges(missing, 0)
    for limit := cfg.subrangeSize; cfg.maxSubRequests > 0 && len(missing) > cfg.maxSubRequests; limit = limit * 2 {
      missing = mergeRanges(missing, limit)
    }

The loop is modelled as a fuel-indexed iteration: `mergeLoopN maxSub n`
performs at most `n` unfoldings of the Go loop and stops early as soon as
the loop condition is false.  Termination of the Go loop is then the
statement that some finite fuel reaches a state where the condition is
false and further fuel does not change the result. -/

/-- Fuel-indexed model of the doubling-tolerance merge loop. -/
def mergeLoopN (maxSubRequests : Int) : Nat → List Rng → Int → List Rng
  | 0, missing, _ => missing
  | n + 1, missing, limit =>
    if 0 < maxSubRequests ∧ maxSubRequests < (missing.length : Int) then
      mergeLoopN maxSubRequests n (mergeRanges missing limit) (limit * 2)
    else missing

/-- If the loop condition is already false, the loop returns its input for
any amount of fuel. -/
theorem mergeLoopN_fix (maxSub : Int) (missing : List Rng) (limit : Int)
    (h : ¬(0 < maxSub ∧ maxSub < (missing.length : Int))) :
    ∀ n : Nat, mergeLoopN maxSub n missing limit = missing := by
  intro n
  cases n with
  | zero => rfl
  | succ n => simp [mergeLoopN, h]

/-- Upper bound on all consecutive inter-range distances. -/
def distLe (d : Int) (l : List Rng) : Prop :=
  List.Chain' (fun a b => b.start - a.end_ ≤ d) l

theorem exists_distLe (l : List Rng) : ∃ d, distLe d l := by
  induction l with
  | nil => exact ⟨0, List.chain'_nil⟩
  | cons a l ih =>
    obtain ⟨d, hd⟩ := ih
    cases l with
    | nil => exact ⟨d, List.chain'_singleton a⟩
    | cons b t =>
      refine ⟨max d (b.start - a.end_), List.chain'_cons.mpr ⟨le_max_right _ _, ?_⟩⟩
      exact hd.imp fun x y h => le_trans h (le_max_left _ _)

/-- The merging pass never increases the maximal inter-range distance. -/
theorem mergeAcc_distLe (limit d : Int) :
    ∀ (l : List Rng) (cur : Rng),
      List.Chain' (fun a b => b.start - a.end_ ≤ d) (cur :: l) →
      List.Chain' (fun a b => b.start - a.end_ ≤ d) (mergeAcc limit cur l) := by
  intro l
  induction l with
  | nil => intro cur _; simp [mergeAcc]
  | cons r rs ih =>
    intro cur hch
    rw [List.chain'_cons] at hch
    by_cases hm : r.start - cur.end_ ≤ limit
    · have hch' : List.Chain' (fun a b => b.start - a.end_ ≤ d)
          ((⟨cur.start, r.end_⟩ : Rng) :: rs) := by
        rw [List.chain'_cons'] at hch ⊢
        exact ⟨fun b hb => hch.2.1 b hb, hch.2.2⟩
      simpa [mergeAcc, hm] using ih _ hch'
    · obtain ⟨h, t, heq, hs⟩ := mergeAcc_head limit rs r
      have htl := ih r hch.2
      rw [heq] at htl
      simp only [mergeAcc, hm, if_false]
      rw [heq, List.chain'_cons]
      exact ⟨by rw [hs]; exact hch.1, htl⟩

theorem mergeRanges_distLe (limit d : Int) (l : List Rng) (h : distLe d l) :
    distLe d (mergeRanges l limit) := by
  cases l with
  | nil => exact h
  | cons r rs => exact mergeAcc_distLe limit d rs r h

/-- If every consecutive distance is within the tolerance, the whole list
merges into a single range. -/
theorem mergeAcc_collapse (limit d : Int) (hd : d ≤ limit) :
    ∀ (l : List Rng) (cur : Rng),
      List.Chain' (fun a b => b.start - a.end_ ≤ d) (cur :: l) →
      ∃ r, mergeAcc limit cur l = [r] := by
  intro l
  induction l with
  | nil => intro cur _; exact ⟨cur, rfl⟩
  | cons r rs ih =>
    intro cur hch
    rw [List.chain'_cons] at hch
    have hm : r.start - cur.end_ ≤ limit := le_trans hch.1 hd
    have hch' : List.Chain' (fun a b => b.start - a.end_ ≤ d)
        ((⟨cur.start, r.end_⟩ : Rng) :: rs) := by
      rw [List.chain'_cons'] at hch ⊢
      exact ⟨fun b hb => hch.2.1 b hb, hch.2.2⟩
    obtain ⟨x, hx⟩ := ih _ hch'
    exact ⟨x, by simp [mergeAcc, hm, hx]⟩

theorem mergeLoopN_succ_of_pos (maxSub : Int) (n : Nat) (missing : List Rng)
    (limit : Int) (h : 0 < maxSub ∧ maxSub < (missing.length : Int)) :
    mergeLoopN maxSub (n + 1) missing limit =
      mergeLoopN maxSub n (mergeRanges missing limit) (limit * 2) := by
  simp only [mergeLoopN]
  rw [if_pos h]

/-- A single round collapses everything to one range once the tolerance
covers every inter-range distance; afterwards the loop is done. -/
theorem mergeLoopN_one_collapse (maxSub limit d : Int) (hmax : 0 < maxSub)
    (hdl : d ≤ limit) (missing : List Rng) (hdist : distLe d missing)
    (hc : 0 < maxSub ∧ maxSub < (missing.length : Int)) :
    ((mergeLoopN maxSub 1 missing limit).length : Int) ≤ maxSub ∧
      ∀ m : Nat, mergeLoopN maxSub (1 + m) missing limit =
        mergeLoopN maxSub 1 missing limit := by
  obtain ⟨a, l, rfl⟩ : ∃ a l, missing = a :: l := by
    cases missing with
    | nil => exfalso; simp at hc; omega
    | cons a l => exact ⟨a, l, rfl⟩
  obtain ⟨r, hr⟩ := mergeAcc_collapse limit d hdl l a hdist
  have hmerged : mergeRanges (a :: l) limit = [r] := hr
  have hdone : ¬(0 < maxSub ∧ maxSub < (([r] : List Rng).length : Int)) := by
    simp only [List.length_singleton]
    omega
  have e1 : mergeLoopN maxSub 1 (a :: l) limit = [r] := by
    rw [show (1 : Nat) = 0 + 1 from rfl, mergeLoopN_succ_of_pos maxSub 0 _ _ hc, hmerged]
    rfl
  constructor
  · rw [e1]; simp; omega
  · intro m
    have e2 : mergeLoopN maxSub (1 + m) (a :: l) limit = [r] := by
      rw [show 1 + m = m + 1 from by omega, mergeLoopN_succ_of_pos maxSub m _ _ hc, hmerged]
      exact mergeLoopN_fix maxSub [r] (limit * 2) hdone m
    rw [e1, e2]

/-- Extra fuel after the loop condition has become false does not change
the result. -/
theorem mergeLoopN_stable (maxSub : Int) :
    ∀ (n m : Nat) (missing : List Rng) (limit : Int),
      ¬(0 < maxSub ∧ maxSub < ((mergeLoopN maxSub n missing limit).length : Int)) →
      mergeLoopN maxSub (n + m) missing limit = mergeLoopN maxSub n missing limit := by
  intro n
  induction n with
  | zero =>
    intro m missing limit h
    simpa using mergeLoopN_fix maxSub missing limit (by simpa using h) m
  | succ n ih =>
    intro m missing limit h
    by_cases hc : 0 < maxSub ∧ maxSub < (missing.length : Int)
    · have e1 := mergeLoopN_succ_of_pos maxSub n missing limit hc
      have e2 : mergeLoopN maxSub (n + 1 + m) missing limit =
          mergeLoopN maxSub (n + m) (mergeRanges missing limit) (limit * 2) := by
        rw [show n + 1 + m = (n + m) + 1 from by omega]
        exact mergeLoopN_succ_of_pos maxSub (n + m) missing limit hc
      rw [e1] at h ⊢
      rw [e2, ih m _ _ h]
    · rw [mergeLoopN_fix maxSub missing limit hc (n + 1)] at h ⊢
      exact mergeLoopN_fix maxSub missing limit hc (n + 1 + m)

/-- Core termination argument for the doubling-tolerance loop: with a
positive starting tolerance the loop reaches, in finitely many rounds, a
state where the loop condition is false, and that state has at most
`maxSub` ranges. -/
theorem mergeLoop_terminates (maxSub : Int) (hmax : 0 < maxSub) :
    ∀ (μ : Nat) (missing : List Rng) (limit d : Int),
      1 ≤ limit → distLe d missing → (d + 1 - limit).toNat ≤ μ →
      ∃ n : Nat,
        ((mergeLoopN maxSub n missing limit).length : Int) ≤ maxSub ∧
        ∀ m : Nat, mergeLoopN maxSub (n + m) missing limit =
          mergeLoopN maxSub n missing limit := by
  intro μ
  induction μ with
  | zero =>
    intro missing limit d hlim hdist hμ
    by_cases hc : 0 < maxSub ∧ maxSub < (missing.length : Int)
    · -- fuel bound forces d ≤ limit, so one merge collapses to one range
      have hdl : d ≤ limit := by omega
      obtain ⟨h1, h2⟩ := mergeLoopN_one_collapse maxSub limit d hmax hdl missing hdist hc
      exact ⟨1, h1, h2⟩
    · refine ⟨0, ?_, fun m => by simpa using mergeLoopN_fix maxSub missing limit hc m⟩
      simp only [mergeLoopN]
      omega
  | succ μ ih =>
    intro missing limit d hlim hdist hμ
    by_cases hc : 0 < maxSub ∧ maxSub < (missing.length : Int)
    · by_cases hdl : d ≤ limit
      · obtain ⟨h1, h2⟩ := mergeLoopN_one_collapse maxSub limit d hmax hdl missing hdist hc
        exact ⟨1, h1, h2⟩
      · have hdist' : distLe d (mergeRanges missing limit) :=
          mergeRanges_distLe limit d missing hdist
        have hlim' : 1 ≤ limit * 2 := by omega
        have hμ' : (d + 1 - limit * 2).toNat ≤ μ := by omega
        obtain ⟨n, hlen, hstab⟩ := ih (mergeRanges missing limit) (limit * 2) d hlim' hdist' hμ'
        have e1 := mergeLoopN_succ_of_pos maxSub n missing limit hc
        refine ⟨n + 1, ?_, ?_⟩
        · rw [e1]; exact hlen
        · intro m
          have e2 : mergeLoopN maxSub (n + 1 + m) missing limit =
              mergeLoopN maxSub (n + m) (mergeRanges missing limit) (limit * 2) := by
            rw [show n + 1 + m = (n + m) + 1 from by omega]
            exact mergeLoopN_succ_of_pos maxSub (n + m) missing limit hc
          rw [e1, e2, hstab m]
    · refine ⟨0, ?_, fun m => by simpa using mergeLoopN_fix maxSub missing limit hc m⟩
      simp only [mergeLoopN]
      omega

/-- C5: for every sorted non-overlapping gap list, the doubling-tolerance
merge loop (tolerance starting at one subrange size, doubling each round)
terminates; when the configured maximum fan-out is positive the final state
has at most that many merged gaps (hence at most that many parallel
underlying fetches), and when the maximum is zero the loop body never runs,
leaving only the initial zero-tolerance adjacency merge. -/
theorem mergeLoop_C5 (gaps : List Rng) (sub maxSub : Int)
    (hs : sortedDisjoint gaps) (hwf : wfRng gaps) (hsub : 1 ≤ sub) :
    (0 < maxSub → ∃ n : Nat,
      (∀ m : Nat, mergeLoopN maxSub (n + m) (mergeRanges gaps 0) sub =
          mergeLoopN maxSub n (mergeRanges gaps 0) sub) ∧
      ((mergeLoopN maxSub n (mergeRanges gaps 0) sub).length : Int) ≤ maxSub) ∧
    (maxSub = 0 →
      ∀ n : Nat, mergeLoopN maxSub n (mergeRanges gaps 0) sub = mergeRanges gaps 0) := by
  constructor
  · intro hmax
    obtain ⟨d, hd⟩ := exists_distLe (mergeRanges gaps 0)
    obtain ⟨n, hlen, hstab⟩ := mergeLoop_terminates maxSub hmax (d + 1 - sub).toNat
      (mergeRanges gaps 0) sub d hsub hd (le_refl _)
    exact ⟨n, hstab, hlen⟩
  · intro h0 n
    exact mergeLoopN_fix maxSub (mergeRanges gaps 0) sub (by omega) n

/-- Witness for `mergeLoop_C5` at a concrete input. -/
theorem mergeLoop_C5_witness :
    ((0 : Int) < 2 → ∃ n : Nat,
      (∀ m : Nat,
        mergeLoopN 2 (n + m) (mergeRanges [⟨0, 1⟩, ⟨2, 3⟩, ⟨10, 11⟩] 0) 1 =
          mergeLoopN 2 n (mergeRanges [⟨0, 1⟩, ⟨2, 3⟩, ⟨10, 11⟩] 0) 1) ∧
      ((mergeLoopN 2 n (mergeRanges [⟨0, 1⟩, ⟨2, 3⟩, ⟨10, 11⟩] 0) 1).length : Int) ≤ 2) ∧
    ((2 : Int) = 0 →
      ∀ n : Nat, mergeLoopN 2 n (mergeRanges [⟨0, 1⟩, ⟨2, 3⟩, ⟨10, 11⟩] 0) 1 =
        mergeRanges [⟨0, 1⟩, ⟨2, 3⟩, ⟨10, 11⟩] 0) :=
  mergeLoop_C5 [⟨0, 1⟩, ⟨2, 3⟩, ⟨10, 11⟩] 1 2
    (by simp [sortedDisjoint, List.chain'_cons, List.chain'_singleton]) (by decide) (by decide)

/-! Cache-key codec (caching_bucket.go:504-584).  Go strings are embedded
as `List Char`; `fmt.Sprintf("%s:%s", ...)` becomes list append with an
explicit `':'`, `strings.Split(key, ":")` becomes `splitColon`, and
`strconv.ParseInt(s, 10, 64)` becomes `parseInt` (the 64-bit overflow
failure of `ParseInt` is not modelled: the keys produced by the encoder
always fit, and no claim depends on overflow). -/

/-- VerbType constants (caching_bucket.go:507-513). -/
inductive VerbType
  | ExistsVerb
  | ContentVerb
  | IterVerb
  | AttributesVerb
  | SubrangeVerb
deriving DecidableEq, Repr

/-- The literal string of each verb. -/
def verbStr : VerbType → List Char
  | .ExistsVerb => ['e', 'x', 'i', 's', 't', 's']
  | .ContentVerb => ['c', 'o', 'n', 't', 'e', 'n', 't']
  | .IterVerb => ['i', 't', 'e', 'r']
  | .AttributesVerb => ['a', 't', 't', 'r', 's']
  | .SubrangeVerb => ['s', 'u', 'b', 'r', 'a', 'n', 'g', 'e']

/-- BucketCacheKey (caching_bucket.go:515-520). -/
structure BucketCacheKey where
  Verb : VerbType
  Name : List Char
  Start : Int
  End : Int
deriving DecidableEq, Repr

/-- Decimal digit character, as produced by Go integer formatting. -/
def digitChar (d : Nat) : Char :=
  match d with
  | 0 => '0'
  | 1 => '1'
  | 2 => '2'
  | 3 => '3'
  | 4 => '4'
  | 5 => '5'
  | 6 => '6'
  | 7 => '7'
  | 8 => '8'
  | _ => '9'

/-- Decimal digits of a natural number, most significant first. -/
def natChars (n : Nat) : List Char :=
  if n < 10 then [digitChar n] else natChars (n / 10) ++ [digitChar (n % 10)]
termination_by n
decreasing_by exact Nat.div_lt_self (by omega) (by omega)

/-- Decimal rendering of an integer (Go `%d` on an `int64`). -/
def intChars (i : Int) : List Char :=
  if i < 0 then '-' :: natChars (-i).toNat else natChars i.toNat

/-- Model of `BucketCacheKey.String` (caching_bucket.go:523-529): non-range
keys render as `verb:name`, range keys as `verb:name:start:end`; the
zero/zero range is indistinguishable from "no range". -/
def BucketCacheKey.str (ck : BucketCacheKey) : List Char :=
  if ck.Start = 0 ∧ ck.End = 0 then
    verbStr ck.Verb ++ ':' :: ck.Name
  else
    verbStr ck.Verb ++ ':' :: (ck.Name ++ ':' :: (intChars ck.Start ++ ':' :: intChars ck.End))

/-- The three key-decoding errors (caching_bucket.go:37-39). -/
inductive KeyErr
  | ErrInvalidBucketCacheKeyFormat
  | ErrInvalidBucketCacheKeyVerb
  | ErrParseKeyInt
deriving DecidableEq, Repr

/-- Model of `strings.Split(key, ":")`. -/
def splitColon : List Char → List (List Char)
  | [] => [[]]
  | c :: cs =>
    if c = ':' then [] :: splitColon cs
    else
      match splitColon cs with
      | [] => [[c]]
      | h :: t => (c :: h) :: t

/-- Value of a decimal digit character. -/
def digitVal (c : Char) : Option Nat :=
  if c = '0' then some 0
  else if c = '1' then some 1
  else if c = '2' then some 2
  else if c = '3' then some 3
  else if c = '4' then some 4
  else if c = '5' then some 5
  else if c = '6' then some 6
  else if c = '7' then some 7
  else if c = '8' then some 8
  else if c = '9' then some 9
  else none

/-- Digit-string accumulator of `strconv.ParseInt`'s base-10 loop. -/
def parseNatDigits (acc : Nat) : List Char → Option Nat
  | [] => some acc
  | c :: cs =>
    match digitVal c with
    | some d => parseNatDigits (acc * 10 + d) cs
    | none => none

/-- Model of `strconv.ParseInt(s, 10, 64)` minus the bit-width check: an
optional sign followed by a non-empty digit string. -/
def parseInt (s : List Char) : Option Int :=
  match s with
  | [] => none
  | c :: rest =>
    if c = '-' then
      if rest = [] then none else (parseNatDigits 0 rest).map fun n => -(n : Int)
    else if c = '+' then
      if rest = [] then none else (parseNatDigits 0 rest).map fun n => (n : Int)
    else (parseNatDigits 0 (c :: rest)).map fun n => (n : Int)

/-- Model of the `IsValidVerb` switch (caching_bucket.go:532-543) applied to
the first field: the verb value of a recognized verb string. -/
def verbOfChars (s : List Char) : Option VerbType :=
  if s = verbStr .ExistsVerb then some .ExistsVerb
  else if s = verbStr .ContentVerb then some .ContentVerb
  else if s = verbStr .IterVerb then some .IterVerb
  else if s = verbStr .AttributesVerb then some .AttributesVerb
  else if s = verbStr .SubrangeVerb then some .SubrangeVerb
  else none

/-- Model of `ParseBucketCacheKey` (caching_bucket.go:546-584). -/
def ParseBucketCacheKey (key : List Char) : Except KeyErr BucketCacheKey :=
  match splitColon key with
  | [] => .error .ErrInvalidBucketCacheKeyFormat
  | [_] => .error .ErrInvalidBucketCacheKeyFormat
  | s0 :: s1 :: rest =>
    match verbOfChars s0 with
    | none => .error .ErrInvalidBucketCacheKeyVerb
    | some verb =>
      if verb = .SubrangeVerb then
        match rest with
        | [s2, s3] =>
          match parseInt s2 with
          | none => .error .ErrParseKeyInt
          | some start =>
            match parseInt s3 with
            | none => .error .ErrParseKeyInt
            | some en => .ok ⟨verb, s1, start, en⟩
        | _ => .error .ErrInvalidBucketCacheKeyFormat
      else
        match rest with
        | [] => .ok ⟨verb, s1, 0, 0⟩
        | _ => .error .ErrInvalidBucketCacheKeyFormat

theorem digitVal_isSome_digitChar (d : Nat) : (digitVal (digitChar d)).isSome := by
  unfold digitChar
  split <;> decide

theorem digitVal_digitChar (d : Nat) (h : d < 10) : digitVal (digitChar d) = some d := by
  interval_cases d <;> decide

theorem natChars_ne_nil (n : Nat) : natChars n ≠ [] := by
  rw [natChars]
  split <;> simp

theorem natChars_digits (n : Nat) : ∀ c ∈ natChars n, (digitVal c).isSome := by
  induction n using Nat.strong_induction_on with
  | _ n ih =>
    rw [natChars]
    by_cases h : n < 10
    · rw [if_pos h]
      intro c hc
      rw [List.mem_singleton] at hc
      subst hc
      exact digitVal_isSome_digitChar n
    · rw [if_neg h]
      intro c hc
      rcases List.mem_append.mp hc with h1 | h1
      · exact ih (n / 10) (Nat.div_lt_self (by omega) (by omega)) c h1
      · rw [List.mem_singleton] at h1
        subst h1
        exact digitVal_isSome_digitChar (n % 10)

theorem not_colon_of_digit {c : Char} (h : (digitVal c).isSome) : c ≠ ':' := by
  intro he; subst he; simp [digitVal] at h

theorem colon_not_mem_natChars (n : Nat) : ':' ∉ natChars n := fun h =>
  not_colon_of_digit (natChars_digits n ':' h) rfl

theorem colon_not_mem_intChars (i : Int) : ':' ∉ intChars i := by
  unfold intChars
  split
  · intro h
    rcases List.mem_cons.mp h with h | h
    · exact absurd h.symm (by decide)
    · exact colon_not_mem_natChars _ h
  · exact colon_not_mem_natChars _

theorem colon_not_mem_verbStr (v : VerbType) : ':' ∉ verbStr v := by
  cases v <;> decide

theorem splitColon_ne_nil (s : List Char) : splitColon s ≠ [] := by
  induction s with
  | nil => simp [splitColon]
  | cons c cs ih =>
    rw [splitColon]
    split
    · simp
    · cases h : splitColon cs with
      | nil => simp
      | cons x t => simp

/-- Splitting a colon-free chunk yields that single chunk. -/
theorem splitColon_noColon (s : List Char) (h : ':' ∉ s) : splitColon s = [s] := by
  induction s with
  | nil => rfl
  | cons c cs ih =>
    rw [splitColon]
    have hc : ¬(c = ':') := fun he => h (by simp [he])
    rw [if_neg hc, ih (fun hm => h (List.mem_cons_of_mem c hm))]

/-- Splitting peels off a leading colon-free chunk. -/
theorem splitColon_append (a r : List Char) (h : ':' ∉ a) :
    splitColon (a ++ ':' :: r) = a :: splitColon r := by
  induction a with
  | nil => simp [splitColon]
  | cons c cs ih =>
    have hc : ¬(c = ':') := fun he => h (by simp [he])
    rw [List.cons_append, splitColon, if_neg hc,
      ih (fun hm => h (List.mem_cons_of_mem c hm))]

theorem parseNatDigits_append (s t : List Char) :
    ∀ acc : Nat, parseNatDigits acc (s ++ t) =
      (parseNatDigits acc s).bind fun m => parseNatDigits m t := by
  induction s with
  | nil => intro acc; simp [parseNatDigits]
  | cons c cs ih =>
    intro acc
    rw [List.cons_append, parseNatDigits, parseNatDigits]
    cases h : digitVal c with
    | none => simp
    | some d => simpa using ih (acc * 10 + d)

theorem parseNatDigits_natChars (n : Nat) :
    ∀ acc : Nat, parseNatDigits acc (natChars n) =
      some (acc * 10 ^ (natChars n).length + n) := by
  induction n using Nat.strong_induction_on with
  | _ n ih =>
    intro acc
    rw [natChars]
    by_cases h : n < 10
    · rw [if_pos h]
      simp [parseNatDigits, digitVal_digitChar n h]
    · rw [if_neg h]
      rw [parseNatDigits_append]
      rw [ih (n / 10) (Nat.div_lt_self (by omega) (by omega)) acc]
      have hbind : ∀ (a : Nat) (f : Nat → Option Nat), (some a).bind f = f a :=
        fun a f => rfl
      rw [hbind, parseNatDigits, digitVal_digitChar (n % 10) (Nat.mod_lt n (by omega))]
      show some _ = _
      rw [List.length_append, List.length_singleton]
      congr 1
      rw [pow_succ, ← mul_assoc]
      generalize acc * 10 ^ (natChars (n / 10)).length = A
      omega

theorem parseNatDigits_natChars_zero (n : Nat) :
    parseNatDigits 0 (natChars n) = some n := by
  rw [parseNatDigits_natChars n 0]
  simp

/-- Decoding inverts the decimal rendering of any integer. -/
theorem parseInt_intChars (i : Int) : parseInt (intChars i) = some i := by
  unfold intChars
  by_cases hneg : i < 0
  · rw [if_pos hneg]
    rw [parseInt]
    rw [if_pos rfl, if_neg (natChars_ne_nil _)]
    rw [parseNatDigits_natChars_zero]
    show some _ = _
    congr 1
    show -(((-i).toNat : Nat) : Int) = i
    omega
  · rw [if_neg hneg]
    obtain ⟨c, cs, hc⟩ : ∃ c cs, natChars i.toNat = c :: cs := by
      cases h : natChars i.toNat with
      | nil => exact absurd h (natChars_ne_nil _)
      | cons c cs => exact ⟨c, cs, rfl⟩
    have hdig : (digitVal c).isSome := natChars_digits _ c (by rw [hc]; simp)
    have hcm : ¬(c = '-') := by
      intro he; subst he; simp [digitVal] at hdig
    have hcp : ¬(c = '+') := by
      intro he; subst he; simp [digitVal] at hdig
    rw [hc, parseInt, if_neg hcm, if_neg hcp, ← hc, parseNatDigits_natChars_zero]
    show some _ = _
    congr 1
    show ((i.toNat : Nat) : Int) = i
    omega

theorem verbOfChars_verbStr (v : VerbType) : verbOfChars (verbStr v) = some v := by
  cases v <;> decide

theorem verbStr_ne_subrange_of_ne (v : VerbType) (h : v ≠ .SubrangeVerb) :
    (v = VerbType.SubrangeVerb) = False := by simp [h]

/-- C2 (amended): decoding inverts encoding for every key whose name is
colon-free and whose Start/End fields are consistent with its verb: a
subrange key must not have `Start = End = 0`, and a non-subrange key must
have `Start = End = 0`. -/
theorem ParseBucketCacheKey_roundTrip (ck : BucketCacheKey)
    (hname : ':' ∉ ck.Name)
    (hsub : ck.Verb = .SubrangeVerb → ¬(ck.Start = 0 ∧ ck.End = 0))
    (hnonsub : ck.Verb ≠ .SubrangeVerb → ck.Start = 0 ∧ ck.End = 0) :
    ParseBucketCacheKey ck.str = .ok ck := by
  obtain ⟨v, name, s, e⟩ := ck
  by_cases hz : s = 0 ∧ e = 0
  · have hv : ¬(v = VerbType.SubrangeVerb) := fun hveq => hsub hveq hz
    have hsplit : splitColon (BucketCacheKey.str ⟨v, name, s, e⟩) = [verbStr v, name] := by
      rw [show BucketCacheKey.str ⟨v, name, s, e⟩ = verbStr v ++ ':' :: name from
        by simp [BucketCacheKey.str, hz.1, hz.2]]
      rw [splitColon_append _ _ (colon_not_mem_verbStr v), splitColon_noColon name hname]
    obtain ⟨rfl, rfl⟩ := hz
    simp [ParseBucketCacheKey, hsplit, verbOfChars_verbStr, hv]
  · have hv : v = VerbType.SubrangeVerb := by
      by_contra hne
      exact hz (hnonsub hne)
    subst hv
    have hsplit : splitColon (BucketCacheKey.str ⟨.SubrangeVerb, name, s, e⟩) =
        [verbStr .SubrangeVerb, name, intChars s, intChars e] := by
      rw [show BucketCacheKey.str ⟨.SubrangeVerb, name, s, e⟩ =
          verbStr .SubrangeVerb ++
            ':' :: (name ++ ':' :: (intChars s ++ ':' :: intChars e)) from
        by simp [BucketCacheKey.str, hz]]
      rw [splitColon_append _ _ (colon_not_mem_verbStr _),
        splitColon_append _ _ hname,
        splitColon_append _ _ (colon_not_mem_intChars s),
        splitColon_noColon _ (colon_not_mem_intChars e)]
    simp [ParseBucketCacheKey, hsplit, verbOfChars_verbStr, parseInt_intChars]

/-- Witness for the amended round-trip at a concrete subrange key. -/
theorem ParseBucketCacheKey_roundTrip_witness :
    ParseBucketCacheKey
        (BucketCacheKey.str ⟨.SubrangeVerb, ['x'], 16000, 32000⟩) =
      .ok ⟨.SubrangeVerb, ['x'], 16000, 32000⟩ :=
  ParseBucketCacheKey_roundTrip ⟨.SubrangeVerb, ['x'], 16000, 32000⟩
    (by decide) (by decide) (by decide)

/-- Counterexample to C2 as stated, in its three failure modes: a subrange
key with `Start = End = 0` encodes as the two-field string `subrange:x`
and is rejected as `ErrInvalidBucketCacheKeyFormat`; a name containing the
separator produces extra fields and is rejected; and a non-subrange key
with a non-zero range renders four fields and is rejected. -/
theorem ParseBucketCacheKey_roundTrip_cex :
    (ParseBucketCacheKey (BucketCacheKey.str ⟨.SubrangeVerb, ['x'], 0, 0⟩) =
        .error .ErrInvalidBucketCacheKeyFormat ∧
      ParseBucketCacheKey (BucketCacheKey.str ⟨.SubrangeVerb, ['x'], 0, 0⟩) ≠
        .ok ⟨.SubrangeVerb, ['x'], 0, 0⟩) ∧
      ParseBucketCacheKey
          (BucketCacheKey.str ⟨.ExistsVerb, ['a', ':', 'b'], 0, 0⟩) ≠
        .ok ⟨.ExistsVerb, ['a', ':', 'b'], 0, 0⟩ ∧
      ParseBucketCacheKey (BucketCacheKey.str ⟨.ExistsVerb, ['x'], 1, 2⟩) ≠
        .ok ⟨.ExistsVerb, ['x'], 1, 2⟩ := by
  have h : ParseBucketCacheKey (BucketCacheKey.str ⟨.SubrangeVerb, ['x'], 0, 0⟩) =
      .error .ErrInvalidBucketCacheKeyFormat := rfl
  refine ⟨⟨h, by rw [h]; exact fun hcontra => Except.noConfusion hcontra⟩, ?_, ?_⟩
  · have h2 : ParseBucketCacheKey
        (BucketCacheKey.str ⟨.ExistsVerb, ['a', ':', 'b'], 0, 0⟩) =
        .error .ErrInvalidBucketCacheKeyFormat := rfl
    rw [h2]
    exact fun hcontra => Except.noConfusion hcontra
  · have hnat1 : natChars 1 = ['1'] := by rw [natChars]; rfl
    have hnat2 : natChars 2 = ['2'] := by rw [natChars]; rfl
    have hint1 : intChars 1 = ['1'] := by
      rw [intChars, if_neg (by norm_num)]
      exact hnat1
    have hint2 : intChars 2 = ['2'] := by
      rw [intChars, if_neg (by norm_num)]
      exact hnat2
    have hstr : BucketCacheKey.str ⟨.ExistsVerb, ['x'], 1, 2⟩ =
        ['e', 'x', 'i', 's', 't', 's', ':', 'x', ':', '1', ':', '2'] := by
      rw [BucketCacheKey.str, if_neg (by norm_num)]
      rw [show (⟨.ExistsVerb, ['x'], 1, 2⟩ : BucketCacheKey).Start = 1 from rfl,
        show (⟨.ExistsVerb, ['x'], 1, 2⟩ : BucketCacheKey).End = 2 from rfl,
        hint1, hint2]
      rfl
    rw [hstr]
    exact fun hcontra => Except.noConfusion hcontra

/-- C6: `ParseBucketCacheKey` fails with exactly the specified error kind in
each case: `InvalidFormat` for fewer than 2 colon-delimited fields
(including the empty string), `InvalidVerb` for an unrecognized first
field, `InvalidFormat` for a subrange key without exactly 4 fields or a
non-subrange key without exactly 2, and `ParseKeyInt` when a subrange
key's start or end field is not a valid integer. -/
theorem ParseBucketCacheKey_C6 :
    (ParseBucketCacheKey [] = .error .ErrInvalidBucketCacheKeyFormat) ∧
    (∀ key : List Char, (splitColon key).length < 2 →
      ParseBucketCacheKey key = .error .ErrInvalidBucketCacheKeyFormat) ∧
    (∀ (key : List Char) (s0 s1 : List Char) (rest : List (List Char)),
      splitColon key = s0 :: s1 :: rest → verbOfChars s0 = none →
      ParseBucketCacheKey key = .error .ErrInvalidBucketCacheKeyVerb) ∧
    (∀ (key : List Char) (s0 s1 : List Char) (rest : List (List Char)),
      splitColon key = s0 :: s1 :: rest → verbOfChars s0 = some .SubrangeVerb →
      (splitColon key).length ≠ 4 →
      ParseBucketCacheKey key = .error .ErrInvalidBucketCacheKeyFormat) ∧
    (∀ (key : List Char) (s0 s1 : List Char) (rest : List (List Char)) (v : VerbType),
      splitColon key = s0 :: s1 :: rest → verbOfChars s0 = some v →
      v ≠ .SubrangeVerb → (splitColon key).length ≠ 2 →
      ParseBucketCacheKey key = .error .ErrInvalidBucketCacheKeyFormat) ∧
    (∀ (key : List Char) (s0 s1 s2 s3 : List Char),
      splitColon key = [s0, s1, s2, s3] → verbOfChars s0 = some .SubrangeVerb →
      (parseInt s2 = none ∨ parseInt s3 = none) →
      ParseBucketCacheKey key = .error .ErrParseKeyInt) := by
  refine ⟨rfl, ?_, ?_, ?_, ?_, ?_⟩
  · intro key hlen
    cases h : splitColon key with
    | nil => simp [ParseBucketCacheKey, h]
    | cons s0 t =>
      cases t with
      | nil => simp [ParseBucketCacheKey, h]
      | cons s1 rest => rw [h] at hlen; simp at hlen; omega
  · intro key s0 s1 rest h hverb
    simp [ParseBucketCacheKey, h, hverb]
  · intro key s0 s1 rest h hverb hlen
    rw [h] at hlen
    match rest with
    | [] => simp [ParseBucketCacheKey, h, hverb]
    | [s2] => simp [ParseBucketCacheKey, h, hverb]
    | [s2, s3] => simp at hlen
    | s2 :: s3 :: s4 :: t => simp [ParseBucketCacheKey, h, hverb]
  · intro key s0 s1 rest v h hverb hv hlen
    rw [h] at hlen
    match rest with
    | [] => simp at hlen
    | s2 :: t => simp [ParseBucketCacheKey, h, hverb, hv]
  · intro key s0 s1 s2 s3 h hverb hp
    rcases hp with hp | hp
    · simp [ParseBucketCacheKey, h, hverb, hp]
    · cases hq : parseInt s2 with
      | none => simp [ParseBucketCacheKey, h, hverb, hq]
      | some x => simp [ParseBucketCacheKey, h, hverb, hq, hp]

/-- Witness for `ParseBucketCacheKey_C6` at concrete malformed keys. -/
theorem ParseBucketCacheKey_C6_witness :
    ParseBucketCacheKey ['a'] = .error .ErrInvalidBucketCacheKeyFormat ∧
    ParseBucketCacheKey ['b', 'a', 'd', ':', 'x'] =
      .error .ErrInvalidBucketCacheKeyVerb ∧
    ParseBucketCacheKey
        ['s', 'u', 'b', 'r', 'a', 'n', 'g', 'e', ':', 'x', ':', '1'] =
      .error .ErrInvalidBucketCacheKeyFormat ∧
    ParseBucketCacheKey ['e', 'x', 'i', 's', 't', 's', ':', 'x', ':', '1'] =
      .error .ErrInvalidBucketCacheKeyFormat ∧
    ParseBucketCacheKey
        ['s', 'u', 'b', 'r', 'a', 'n', 'g', 'e', ':', 'x', ':', 'a', ':', '2'] =
      .error .ErrParseKeyInt :=
  ⟨ParseBucketCacheKey_C6.2.1 ['a'] (by decide),
   ParseBucketCacheKey_C6.2.2.1 ['b', 'a', 'd', ':', 'x'] ['b', 'a', 'd'] ['x'] []
     (by decide) (by decide),
   ParseBucketCacheKey_C6.2.2.2.1
     ['s', 'u', 'b', 'r', 'a', 'n', 'g', 'e', ':', 'x', ':', '1']
     ['s', 'u', 'b', 'r', 'a', 'n', 'g', 'e'] ['x'] [['1']]
     (by decide) (by decide) (by decide),
   ParseBucketCacheKey_C6.2.2.2.2.1
     ['e', 'x', 'i', 's', 't', 's', ':', 'x', ':', '1']
     ['e', 'x', 'i', 's', 't', 's'] ['x'] [['1']] .ExistsVerb
     (by decide) (by decide) (by decide) (by decide),
   ParseBucketCacheKey_C6.2.2.2.2.2
     ['s', 'u', 'b', 'r', 'a', 'n', 'g', 'e', ':', 'x', ':', 'a', ':', '2']
     ['s', 'u', 'b', 'r', 'a', 'n', 'g', 'e'] ['x'] ['a'] ['2']
     (by decide) (by decide) (Or.inl (by decide))⟩

/-! Whole-object read path: `Get` short-circuit (caching_bucket.go:220-273)
and the capturing reader `getReader` (caching_bucket.go:652-690).  Byte
strings are `List Nat`; `time.Duration` values are `Int` (nanoseconds). -/

/-- Errors visible to the layer: its own sentinel `errObjNotFound`
(caching_bucket.go:36), the underlying store's own not-found error, or any
other underlying failure. -/
inductive BErr
  | errObjNotFound
  | bucketNotFound
  | otherFailure
deriving DecidableEq, Repr

/-- The underlying bucket's not-found predicate (boundary contract). -/
def bucketIsObjNotFoundErr : BErr → Bool
  | .bucketNotFound => true
  | _ => false

/-- Model of `CachingBucket.IsObjNotFoundErr` (caching_bucket.go:271-273):
the layer's own sentinel, or whatever the wrapped bucket recognizes. -/
def IsObjNotFoundErr (e : BErr) : Bool :=
  (match e with
   | .errObjNotFound => true
   | _ => false) || bucketIsObjNotFoundErr e

/-- Model of `strconv.ParseBool`. -/
def parseBool (s : List Char) : Option Bool :=
  if s = ['1'] ∨ s = ['t'] ∨ s = ['T'] ∨ s = ['T', 'R', 'U', 'E'] ∨
      s = ['t', 'r', 'u', 'e'] ∨ s = ['T', 'r', 'u', 'e'] then some true
  else if s = ['0'] ∨ s = ['f'] ∨ s = ['F'] ∨ s = ['F', 'A', 'L', 'S', 'E'] ∨
      s = ['f', 'a', 'l', 's', 'e'] ∨ s = ['F', 'a', 'l', 's', 'e'] then some false
  else none

/-- Outcome of the cache-decision part of `Get`. -/
inductive GetOutcome
  | cachedContent (b : List Nat)
  | notFound (e : BErr)
  | callUnderlying
deriving DecidableEq, Repr

/-- Model of the decision made by `Get` (caching_bucket.go:233-245) from
the batched fetch of the `content` and `exists` keys: cached content wins;
otherwise a cached `exists` value parsing to `false` returns the layer's
not-found sentinel; otherwise the underlying store is called. -/
def getCacheDecision (contentHit : Option (List Nat))
    (existsHit : Option (List Char)) : GetOutcome :=
  match contentHit with
  | some b => .cachedContent b
  | none =>
    match existsHit with
    | some ex =>
      match parseBool ex with
      | some false => .notFound BErr.errObjNotFound
      | _ => .callUnderlying
    | none => .callUnderlying

/-- C7: with no cached content and a cached `exists` entry parsing to
`false`, `Get` returns a not-found error recognized by the layer's own
`IsObjNotFoundErr`, without calling the underlying store. -/
theorem get_C7 (contentHit : Option (List Nat)) (existsHit : Option (List Char))
    (hc : contentHit = none)
    (he : ∃ ex, existsHit = some ex ∧ parseBool ex = some false) :
    getCacheDecision contentHit existsHit = .notFound BErr.errObjNotFound ∧
      getCacheDecision contentHit existsHit ≠ .callUnderlying ∧
      IsObjNotFoundErr BErr.errObjNotFound = true := by
  obtain ⟨ex, hex, hpb⟩ := he
  subst hc hex
  refine ⟨?_, ?_, rfl⟩
  · simp [getCacheDecision, hpb]
  · simp [getCacheDecision, hpb]

/-- Witness for `get_C7` with the exists entry the encoder itself writes. -/
theorem get_C7_witness :
    getCacheDecision none (some ['f', 'a', 'l', 's', 'e']) =
        .notFound BErr.errObjNotFound ∧
      getCacheDecision none (some ['f', 'a', 'l', 's', 'e']) ≠ .callUnderlying ∧
      IsObjNotFoundErr BErr.errObjNotFound = true :=
  get_C7 none (some ['f', 'a', 'l', 's', 'e']) rfl
    ⟨['f', 'a', 'l', 's', 'e'], rfl, by decide⟩

/-- State of the capturing reader `getReader`: `buf = none` means capture
has been abandoned (size cap exceeded, store already done, or reader
closed); `stored` records the single possible `Store` call with its value
and TTL. -/
structure GetReaderState where
  buf : Option (List Nat)
  stored : Option (List Nat × Int)
deriving DecidableEq, Repr

/-- Model of one `getReader.Read` call (caching_bucket.go:669-690) in which
the underlying reader produced the chunk `p` and, when `eof` is set, ended
with `io.EOF`; `elapsed` is the time since the read began.  The chunk is
returned to the caller unchanged in every case. -/
def getReaderRead (maxSize : Nat) (ttl elapsed : Int) (st : GetReaderState)
    (p : List Nat) (eof : Bool) : GetReaderState × List Nat :=
  let st1 :=
    if 0 < p.length then
      match st.buf with
      | some buf =>
        if buf.length + p.length ≤ maxSize then { st with buf := some (buf ++ p) }
        else { st with buf := none }
      | none => st
    else st
  let st2 :=
    if eof then
      match st1.buf with
      | some buf =>
        if 0 < ttl - elapsed then { buf := none, stored := some (buf, ttl - elapsed) }
        else { st1 with buf := none }
      | none => st1
    else st1
  (st2, p)

/-- Model of `getReader.Close` (caching_bucket.go:663-667): dropping the
buffer without storing. -/
def getReaderClose (st : GetReaderState) : GetReaderState := { st with buf := none }

/-- Initial state of a `getReader` (caching_bucket.go:259-268). -/
def initGetReader : GetReaderState := { buf := some [], stored := none }

/-- Feed a sequence of mid-stream chunks (no EOF yet) through the reader. -/
def runReads (maxSize : Nat) (ttl elapsed : Int) :
    GetReaderState → List (List Nat) → GetReaderState
  | st, [] => st
  | st, p :: ps =>
    runReads maxSize ttl elapsed (getReaderRead maxSize ttl elapsed st p false).1 ps

/-- Full successful read of a stream: all chunks, then the EOF read. -/
def runGetReader (maxSize : Nat) (ttl elapsed : Int)
    (chunks : List (List Nat)) : GetReaderState :=
  (getReaderRead maxSize ttl elapsed (runReads maxSize ttl elapsed initGetReader chunks)
    [] true).1

theorem runReads_none (maxSize : Nat) (ttl elapsed : Int) :
    ∀ (chunks : List (List Nat)) (s : Option (List Nat × Int)),
      runReads maxSize ttl elapsed ⟨none, s⟩ chunks = ⟨none, s⟩ := by
  intro chunks
  induction chunks with
  | nil => intro s; rfl
  | cons p ps ih =>
    intro s
    rw [runReads]
    have : (getReaderRead maxSize ttl elapsed ⟨none, s⟩ p false).1 = ⟨none, s⟩ := by
      simp [getReaderRead]
    rw [this, ih]

theorem runReads_some (maxSize : Nat) (ttl elapsed : Int) :
    ∀ (chunks : List (List Nat)) (b : List Nat) (s : Option (List Nat × Int)),
      b.length ≤ maxSize →
      runReads maxSize ttl elapsed ⟨some b, s⟩ chunks =
        if b.length + chunks.flatten.length ≤ maxSize then ⟨some (b ++ chunks.flatten), s⟩
        else ⟨none, s⟩ := by
  intro chunks
  induction chunks with
  | nil => intro b s hb; simp [runReads, hb]
  | cons p ps ih =>
    intro b s hb
    rw [runReads]
    by_cases hp : 0 < p.length
    · by_cases hsz : b.length + p.length ≤ maxSize
      · have h1 : (getReaderRead maxSize ttl elapsed ⟨some b, s⟩ p false).1 =
            ⟨some (b ++ p), s⟩ := by
          simp [getReaderRead, hp, hsz]
        rw [h1, ih (b ++ p) s (by simp only [List.length_append]; omega)]
        simp only [List.flatten_cons, List.length_append]
        by_cases h2 : b.length + (p.length + ps.flatten.length) ≤ maxSize
        · rw [if_pos (by omega), if_pos (by omega)]
          simp [List.append_assoc]
        · rw [if_neg (by omega), if_neg (by omega)]
      · have h1 : (getReaderRead maxSize ttl elapsed ⟨some b, s⟩ p false).1 =
            ⟨none, s⟩ := by
          simp [getReaderRead, hp, hsz]
        rw [h1, runReads_none]
        have : ¬(b.length + (p :: ps).flatten.length ≤ maxSize) := by
          simp only [List.flatten_cons, List.length_append]
          omega
        rw [if_neg this]
    · have hp0 : p = [] := by
        cases p with
        | nil => rfl
        | cons x xs => simp at hp
      subst hp0
      have h1 : (getReaderRead maxSize ttl elapsed ⟨some b, s⟩ [] false).1 =
          ⟨some b, s⟩ := by
        simp [getReaderRead]
      rw [h1, ih b s hb]
      simp

/-- C8 (amended): the capturing reader stores the content entry exactly
when end-of-stream is reached with capture still active (total size within
the cap, no early close) and the remaining TTL is positive; what is stored
is exactly the concatenation of all bytes read; an early `Close` stores
nothing; and every `Read` returns the underlying chunk unchanged. -/
theorem getReader_C8 (maxSize : Nat) (ttl elapsed : Int)
    (chunks : List (List Nat)) :
    ((runGetReader maxSize ttl elapsed chunks).stored =
      if chunks.flatten.length ≤ maxSize ∧ 0 < ttl - elapsed then
        some (chunks.flatten, ttl - elapsed)
      else none) ∧
      (getReaderClose (runReads maxSize ttl elapsed initGetReader chunks)).stored
        = none ∧
      ∀ (st : GetReaderState) (p : List Nat) (eof : Bool),
        (getReaderRead maxSize ttl elapsed st p eof).2 = p := by
  have hrun : runReads maxSize ttl elapsed initGetReader chunks =
      if chunks.flatten.length ≤ maxSize then
        (⟨some chunks.flatten, none⟩ : GetReaderState)
      else ⟨none, none⟩ := by
    have := runReads_some maxSize ttl elapsed chunks [] none (by simp)
    simpa [initGetReader] using this
  refine ⟨?_, ?_, fun st p eof => rfl⟩
  · rw [runGetReader, hrun]
    by_cases h1 : chunks.flatten.length ≤ maxSize
    · rw [if_pos h1]
      by_cases h2 : 0 < ttl - elapsed
      · rw [if_pos ⟨h1, h2⟩]
        simp [getReaderRead, h2]
      · rw [if_neg (by tauto)]
        simp [getReaderRead, h2]
    · rw [if_neg h1, if_neg (by tauto)]
      simp [getReaderRead]
  · rw [hrun]
    by_cases h1 : chunks.flatten.length ≤ maxSize
    · rw [if_pos h1]; rfl
    · rw [if_neg h1]; rfl

/-- Counterexample to C8 as stated: with a content TTL that has already
elapsed, end-of-stream is reached with capture still active and yet
nothing is stored. -/
theorem getReader_C8_cex :
    (runReads 10 0 0 initGetReader [[7]]).buf = some [7] ∧
      (runGetReader 10 0 0 [[7]]).stored = none := by
  constructor <;> rfl

/-! Directory-listing cache: `Iter` (caching_bucket.go:132-175).  The
visitor is a function from the entry name to an optional error; the
underlying `Bucket.Iter` visits entries in order and stops at the first
callback error, returning it (the objstore contract the code relies on).
The iteration codec is kept abstract (`encode`/`decode` parameters), as the
concrete `JSONIterCodec` is irrelevant to the claims. -/

/-- Replay of a cached listing through the visitor (caching_bucket.go:146-151):
stops at, and returns, the first visitor error. -/
def iterVisit (f : List Char → Option BErr) : List (List Char) → Option BErr
  | [] => none
  | n :: ns =>
    match f n with
    | some e => some e
    | none => iterVisit f ns

/-- The underlying enumeration wrapped by `Iter`'s collecting callback
(caching_bucket.go:159-163): each visited entry is appended to the list and
then passed to the visitor; the first visitor error aborts the walk and is
returned. -/
def iterCollect (f : List Char → Option BErr) :
    List (List Char) → List (List Char) × Option BErr
  | [] => ([], none)
  | n :: ns =>
    match f n with
    | some e => ([n], some e)
    | none =>
      let r := iterCollect f ns
      (n :: r.1, r.2)

/-- The cache-miss path of `Iter` (caching_bucket.go:156-174): run the
underlying enumeration; on clean completion with positive remaining TTL,
encode and store the listing.  Result is the returned error together with
the store call performed, if any. -/
def iterMiss (encode : List (List Char) → Option (List Nat))
    (entries : List (List Char)) (f : List Char → Option BErr)
    (ttl elapsed : Int) : Option BErr × Option (List Nat × Int) :=
  let r := iterCollect f entries
  let remainingTTL := ttl - elapsed
  match r.2 with
  | some e => (some e, none)
  | none =>
    if 0 < remainingTTL then
      match encode r.1 with
      | some data => (none, some (data, remainingTTL))
      | none => (none, none)
    else (none, none)

/-- Model of `Iter` with a matching config (caching_bucket.go:138-175):
a decodable cached listing is replayed through the visitor and nothing is
stored; otherwise the underlying enumeration runs via `iterMiss`. -/
def iterOp (cachedData : Option (List Nat))
    (decode : List Nat → Option (List (List Char)))
    (encode : List (List Char) → Option (List Nat))
    (entries : List (List Char)) (f : List Char → Option BErr)
    (ttl elapsed : Int) : Option BErr × Option (List Nat × Int) :=
  match cachedData with
  | some data =>
    match decode data with
    | some list => (iterVisit f list, none)
    | none => iterMiss encode entries f ttl elapsed
  | none => iterMiss encode entries f ttl elapsed

theorem iterMiss_store (encode : List (List Char) → Option (List Nat))
    (entries : List (List Char)) (f : List Char → Option BErr)
    (ttl elapsed : Int) (st : List Nat × Int)
    (hst : (iterMiss encode entries f ttl elapsed).2 = some st) :
    (iterMiss encode entries f ttl elapsed).1 = none ∧
      st.2 = ttl - elapsed ∧ 0 < ttl - elapsed ∧
      (iterCollect f entries).2 = none ∧
      encode (iterCollect f entries).1 = some st.1 := by
  rcases hcol : (iterCollect f entries).2 with - | e
  · by_cases httl : 0 < ttl - elapsed
    · rcases henc : encode (iterCollect f entries).1 with - | data
      · simp [iterMiss, hcol, httl, henc] at hst
      · have hst' : (data, ttl - elapsed) = st := by
          simpa [iterMiss, hcol, httl, henc] using hst
        subst hst'
        exact ⟨by simp [iterMiss, hcol, httl, henc], rfl, httl, rfl, by simp [henc]⟩
    · simp [iterMiss, hcol, httl] at hst
  · simp [iterMiss, hcol] at hst

/-- C9: a visitor error is returned from `Iter` on both the cache-replay
path and the underlying-enumeration path, and then nothing is stored; a
listing is stored only after an error-free completion, with TTL equal to
the configured TTL minus the enumeration's elapsed time, and the store is
skipped when that remainder is non-positive. -/
theorem iter_C9 (cachedData : Option (List Nat))
    (decode : List Nat → Option (List (List Char)))
    (encode : List (List Char) → Option (List Nat))
    (entries : List (List Char)) (f : List Char → Option BErr)
    (ttl elapsed : Int) :
    (∀ (data : List Nat) (list : List (List Char)) (e : BErr),
      cachedData = some data → decode data = some list → iterVisit f list = some e →
      iterOp cachedData decode encode entries f ttl elapsed = (some e, none)) ∧
    (∀ e : BErr, cachedData = none → (iterCollect f entries).2 = some e →
      iterOp cachedData decode encode entries f ttl elapsed = (some e, none)) ∧
    (∀ st : List Nat × Int,
      (iterOp cachedData decode encode entries f ttl elapsed).2 = some st →
      (iterOp cachedData decode encode entries f ttl elapsed).1 = none ∧
        st.2 = ttl - elapsed ∧ 0 < ttl - elapsed ∧
        (iterCollect f entries).2 = none ∧
        encode (iterCollect f entries).1 = some st.1) ∧
    (ttl - elapsed ≤ 0 →
      (iterOp cachedData decode encode entries f ttl elapsed).2 = none) := by
  refine ⟨?_, ?_, ?_, ?_⟩
  · intro data list e hdata hdec hv
    subst hdata
    simp [iterOp, hdec, hv]
  · intro e hdata hcol
    subst hdata
    simp [iterOp, iterMiss, hcol]
  · intro st hst
    rcases hc : cachedData with - | data
    · subst hc
      exact iterMiss_store encode entries f ttl elapsed st hst
    · subst hc
      rcases hd : decode data with - | list
      · simp only [iterOp, hd] at hst ⊢
        exact iterMiss_store encode entries f ttl elapsed st hst
      · simp only [iterOp, hd] at hst
        exact Option.noConfusion hst
  · intro httl
    rcases cachedData with - | data
    · rw [iterOp, iterMiss]
      rcases (iterCollect f entries).2 with - | e
      · rw [if_neg (by omega)]
      · rfl
    · rw [iterOp]
      rcases decode data with - | list
      · rw [iterMiss]
        rcases (iterCollect f entries).2 with - | e
        · rw [if_neg (by omega)]
        · rfl
      · rfl

/-- Witness for `iter_C9`: an enumeration that errors on the third visited
entry returns that error and stores nothing. -/
theorem iter_C9_witness :
    iterOp none (fun _ => none) (fun l => some [l.length]) [['a'], ['b'], ['c']]
        (fun n => if n = ['c'] then some BErr.otherFailure else none) 10 3 =
      (some BErr.otherFailure, none) :=
  (iter_C9 none (fun _ => none) (fun l => some [l.length]) [['a'], ['b'], ['c']]
      (fun n => if n = ['c'] then some BErr.otherFailure else none) 10 3).2.1
    BErr.otherFailure rfl rfl

/-! Range cache engine (`cachedGetRange`, caching_bucket.go:329-397,
`fetchMissingSubranges`, caching_bucket.go:405-484, and `subrangesReader`,
caching_bucket.go:586-650).

The object is a byte list `data`; `Attributes` resolves to its true size
(`cachedAttributes` returns the store's answer on a miss and a consistent
cache can only hold that same answer).  Subrange cache entries are viewed
as a map from the subrange-aligned offset to the cached bytes: the Go code
keys this map by the string `offsetKeys[off]`, and within a single call
that translation is injective (the name is fixed and the rendered
start/end differ), so the offset-indexed view is equivalent.

`fetchMissingSubranges` is modelled sequentially, one merged gap after
another: the fetched content is deterministic and independent of the task
interleaving, because each map slot is written at most once
(first-writer-wins under the mutex) and every writer for a slot writes the
same slice of the same object.  Context cancellation never fires in the
model (`gctx.Err() = nil`), matching a run in which no fetch fails. -/

/-- The object size reported by `Attributes` (`attrs.Size`). -/
def attrsSize (data : List Nat) : Int := (data.length : Int)

/-- Bytes of the object in `[s, e)`, clamped to the object bounds: what an
ideal underlying `GetRange(name, s, e - s)` returns for `0 ≤ s`. -/
def objSlice (data : List Nat) (s e : Int) : List Nat :=
  (data.drop s.toNat).take (e - s).toNat

/-- Length clamping (caching_bucket.go:338-341). -/
def clampedLength (size offset length : Int) : Int :=
  if offset + length > size then size - offset else length

/-- Aligned start of the read window (caching_bucket.go:344). -/
def startRange (offset sub : Int) : Int := offset / sub * sub

/-- Aligned end of the read window (caching_bucket.go:345-348); `clen` is
the already clamped length. -/
def endRange (offset clen sub : Int) : Int :=
  if (offset + clen) % sub > 0 then (offset + clen) / sub * sub + sub
  else (offset + clen) / sub * sub

/-- Offset of the last subrange of the window (caching_bucket.go:351-356). -/
def lastSubrangeOffset (size offset clen sub : Int) : Int :=
  if endRange offset clen sub > size then size / sub * sub
  else endRange offset clen sub - sub

/-- True length of the last subrange (caching_bucket.go:351-356). -/
def lastSubrangeLength (size offset clen sub : Int) : Int :=
  if endRange offset clen sub > size then size - size / sub * sub
  else sub

/-- The subrange-aligned offsets `s, s+sub, ...` below `e`: the loop
generating one subrange cache key per offset (caching_bucket.go:364-374). -/
def alignedOffs (s e sub : Int) : List Int :=
  (List.range ((e - s) / sub).toNat).map fun i : Nat => s + sub * (i : Int)

/-- The cache's answer for the generated subrange keys
(`cfg.cache.Fetch(ctx, keys)`, caching_bucket.go:378), restricted to the
generated offsets. -/
def initialHits (cache : Int → Option (List Nat)) (offs : List Int) :
    Int → Option (List Nat) :=
  fun o => if o ∈ offs then cache o else none

/-- Number of keys found in the cache (`len(hits)` over found entries). -/
def countHits (hits : Int → Option (List Nat)) (offs : List Int) : Nat :=
  (offs.filter fun o => (hits o).isSome).length

/-- The ordered list of missing one-subrange gaps
(caching_bucket.go:407-413). -/
def missingRanges (hits : Int → Option (List Nat)) (offs : List Int)
    (sub : Int) : List Rng :=
  offs.filterMap fun off =>
    if hits off = none then some ⟨off, off + sub⟩ else none

/-- Maximal consecutive inter-range distance of a gap list (used only to
size the loop fuel; any over-approximation would do). -/
def maxGap : List Rng → Int
  | [] => 0
  | [_] => 0
  | a :: b :: t => max (b.start - a.end_) (maxGap (b :: t))

/-- The merged gap list of `fetchMissingSubranges`
(caching_bucket.go:415-419): the zero-tolerance adjacency merge followed
by the doubling-tolerance loop, run with provably sufficient fuel. -/
def mergedGaps (missing : List Rng) (sub maxSub : Int) : List Rng :=
  mergeLoopN maxSub ((maxGap (mergeRanges missing 0) + 1).toNat + 1)
    (mergeRanges missing 0) sub

/-- The per-subrange slice-and-store loop over one fetched gap
(caching_bucket.go:447-477): each subrange piece is put into the hits map
only if absent (first-writer-wins, caching_bucket.go:463-469); an offset
without a generated key is the `caching key ... not found` error
(caching_bucket.go:449-451). -/
def storeSubranges (buf : List Nat) (mstart sub lastOff lastLen : Int)
    (keys : List Int) :
    (Int → Option (List Nat)) → List Int → Option (Int → Option (List Nat))
  | hits, [] => some hits
  | hits, off :: rest =>
    if off ∈ keys then
      let subrangeData :=
        if off = lastOff then (buf.drop (off - mstart).toNat).take lastLen.toNat
        else (buf.drop (off - mstart).toNat).take sub.toNat
      match hits off with
      | some _ => storeSubranges buf mstart sub lastOff lastLen keys hits rest
      | none =>
        storeSubranges buf mstart sub lastOff lastLen keys
          (fun o => if o = off then some subrangeData else hits o) rest
    else none

/-- One gap fetch (the body of the per-gap task, caching_bucket.go:427-480):
underlying `GetRange` on the ideal store followed by `io.ReadFull` into a
`bufSize` buffer (failing when fewer bytes are available), then the
slice-and-store loop. -/
def fetchRange (data : List Nat) (sub lastOff lastLen : Int) (keys : List Int)
    (hits : Int → Option (List Nat)) (m : Rng) :
    Option (Int → Option (List Nat)) :=
  let fetched := objSlice data m.start (min m.end_ (attrsSize data))
  let bufSize := if lastOff ≥ m.end_ then m.end_ - m.start
                 else (m.end_ - m.start) - sub + lastLen
  if bufSize.toNat ≤ fetched.length then
    storeSubranges (fetched.take bufSize.toNat) m.start sub lastOff lastLen keys
      hits (alignedOffs m.start m.end_ sub)
  else none

/-- All gap fetches of `fetchMissingSubranges` (caching_bucket.go:424-483),
run sequentially (see the section comment); `none` is a failed fetch, which
fails the whole operation. -/
def fetchMissing (data : List Nat) (sub lastOff lastLen : Int)
    (keys : List Int) :
    (Int → Option (List Nat)) → List Rng → Option (Int → Option (List Nat))
  | hits, [] => some hits
  | hits, m :: ms =>
    match fetchRange data sub lastOff lastLen keys hits m with
    | some hits2 => fetchMissing data sub lastOff lastLen keys hits2 ms
    | none => none

/-- Fuel-indexed drain of the `subrangesReader` (caching_bucket.go:612-642):
repeated `Read` calls with an ample caller buffer, concatenating the chunks
until EOF (`remaining ≤ 0`).  A missing subrange is the
`subrange for offset ... not found` error, an exhausted subrange the
`no more data left` error.  Each successful step consumes at least one
byte, so fuel `remaining.toNat + 1` (used by `drainReader`) never runs
out. -/
def drainLoop (sub : Int) (offs : List Int)
    (subranges : Int → Option (List Nat)) :
    Nat → Int → Int → Option (List Nat)
  | 0, _, _ => none
  | fuel + 1, readOffset, remaining =>
    if remaining ≤ 0 then some []
    else
      -- `readOffset / sub * sub` is `currentSubrangeOffset`,
      -- `readOffset - currentSubrangeOffset` is `offsetInSubrange`,
      -- `b.length - offsetInSubrange` is the untruncated `toCopy`, and
      -- `min (b.length - offsetInSubrange) remaining` is the final `toCopy`
      -- (the caller's buffer is ample, so the `len(p)` cap never bites).
      match
        (if readOffset / sub * sub ∈ offs
         then subranges (readOffset / sub * sub) else none) with
      | none => none
      | some b =>
        if (b.length : Int) - (readOffset - readOffset / sub * sub) ≤ 0 then
          none
        else
          match drainLoop sub offs subranges fuel
              (readOffset +
                min ((b.length : Int) - (readOffset - readOffset / sub * sub))
                  remaining)
              (remaining -
                min ((b.length : Int) - (readOffset - readOffset / sub * sub))
                  remaining) with
          | none => none
          | some rest =>
            some ((b.drop (readOffset - readOffset / sub * sub).toNat).take
              (min ((b.length : Int) - (readOffset - readOffset / sub * sub))
                remaining).toNat ++ rest)

/-- Full drain of a fresh `subrangesReader` (caching_bucket.go:601-610). -/
def drainReader (sub : Int) (offs : List Int)
    (subranges : Int → Option (List Nat)) (readOffset remaining : Int) :
    Option (List Nat) :=
  drainLoop sub offs subranges (remaining.toNat + 1) readOffset remaining

/-- Model of `cachedGetRange` (caching_bucket.go:329-397): computes the
aligned window, fetches cached subranges, fetches and stores the missing
merged gaps, and drains the assembled reader.  The result is the content
the returned reader yields together with the list of gap fetches issued to
the underlying store; `none` is a failed call. -/
def cachedGetRange (data : List Nat) (sub maxSub : Int)
    (cache : Int → Option (List Nat)) (offset length : Int) :
    Option (List Nat × List Rng) :=
  let size := attrsSize data
  let clen := clampedLength size offset length
  let s := startRange offset sub
  let e := endRange offset clen sub
  let lastOff := lastSubrangeOffset size offset clen sub
  let lastLen := lastSubrangeLength size offset clen sub
  let offs := alignedOffs s e sub
  let hits := initialHits cache offs
  if countHits hits offs < offs.length then
    let missing := missingRanges hits offs sub
    let merged := mergedGaps missing sub maxSub
    match fetchMissing data sub lastOff lastLen offs hits merged with
    | some hits2 =>
      (drainReader sub offs hits2 offset clen).map fun bs => (bs, merged)
    | none => none
  else
    (drainReader sub offs hits offset clen).map fun bs => (bs, [])

/-- What a direct `GetRange(offset, length)` on the underlying store
returns for the same window. -/
def directRead (data : List Nat) (offset length : Int) : List Nat :=
  objSlice data offset (offset + length)

/-- A cache state is consistent with the object when every present
subrange entry holds exactly the object's bytes for that subrange. -/
def cacheConsistent (data : List Nat) (sub : Int)
    (cache : Int → Option (List Nat)) : Prop :=
  ∀ o b, cache o = some b →
    b = objSlice data o (min (o + sub) (attrsSize data))

theorem align_le (a sub : Int) (hsub : 0 < sub) :
    a / sub * sub ≤ a ∧ a < a / sub * sub + sub := by
  have h1 := Int.ediv_add_emod a sub
  have h2 := Int.emod_nonneg a (show sub ≠ 0 by omega)
  have h3 := Int.emod_lt_of_pos a hsub
  rw [mul_comm]
  omega

theorem le_of_dvd_lt (sub a b : Int) (hsub : 1 ≤ sub) (hd : sub ∣ b - a)
    (h : a < b) : a + sub ≤ b := by
  obtain ⟨k, hk⟩ := hd
  have hk1 : 1 ≤ k := by nlinarith
  nlinarith

theorem ediv_mul_mono (a b sub : Int) (hsub : 0 < sub) (h : a ≤ b) :
    a / sub * sub ≤ b / sub * sub := by
  have := Int.ediv_le_ediv hsub h
  exact mul_le_mul_of_nonneg_right this (by omega)

/-- Membership in the generated offset list: the subrange-aligned offsets
of the window. -/
theorem mem_alignedOffs (s e sub off : Int) (hsub : 1 ≤ sub)
    (hs : sub ∣ s) (he : sub ∣ e) :
    off ∈ alignedOffs s e sub ↔ sub ∣ off ∧ s ≤ off ∧ off < e := by
  obtain ⟨ks, rfl⟩ := hs
  obtain ⟨ke, rfl⟩ := he
  have hes : sub * ke - sub * ks = sub * (ke - ks) := by ring
  rw [alignedOffs]
  constructor
  · intro hmem
    obtain ⟨i, hi, rfl⟩ := List.mem_map.mp hmem
    rw [List.mem_range] at hi
    have hipos : (0 : Int) ≤ (i : Int) := Int.natCast_nonneg i
    have hlt : (i : Int) < (sub * ke - sub * ks) / sub := by omega
    rw [hes, Int.mul_ediv_cancel_left _ (by omega : sub ≠ 0)] at hlt
    refine ⟨⟨ks + i, by ring⟩, by nlinarith, by nlinarith⟩
  · rintro ⟨⟨ko, rfl⟩, hlo, hhi⟩
    have hks : ks ≤ ko := by nlinarith
    have hke : ko < ke := by nlinarith
    rw [List.mem_map]
    refine ⟨(ko - ks).toNat, ?_, ?_⟩
    · rw [List.mem_range, hes, Int.mul_ediv_cancel_left _ (by omega : sub ≠ 0)]
      omega
    · have : ((ko - ks).toNat : Int) = ko - ks := by omega
      rw [this]
      ring

theorem objSlice_length (data : List Nat) (a c : Int) (h0 : 0 ≤ a)
    (hac : a ≤ c) (hc : c ≤ attrsSize data) :
    ((objSlice data a c).length : Int) = c - a := by
  rw [attrsSize] at hc
  simp only [objSlice, List.length_take, List.length_drop]
  omega

theorem objSlice_append (data : List Nat) (a b c : Int) (h0 : 0 ≤ a)
    (hab : a ≤ b) (hbc : b ≤ c) :
    objSlice data a b ++ objSlice data b c = objSlice data a c := by
  unfold objSlice
  have h1 : data.drop b.toNat = (data.drop a.toNat).drop (b - a).toNat := by
    rw [List.drop_drop]
    congr 1
    omega
  rw [h1, show (c - a).toNat = (b - a).toNat + (c - b).toNat from by omega,
    List.take_add]

theorem objSlice_sub (data : List Nat) (a c ro t : Int) (h0 : 0 ≤ a)
    (har : a ≤ ro) (ht : 0 ≤ t) (htc : ro + t ≤ c) :
    ((objSlice data a c).drop (ro - a).toNat).take t.toNat =
      objSlice data ro (ro + t) := by
  unfold objSlice
  rw [List.drop_take, List.drop_drop, List.take_take]
  have h1 : a.toNat + (ro - a).toNat = ro.toNat := by omega
  rw [h1]
  congr 1
  omega

theorem objSlice_of_nonpos (data : List Nat) (a c : Int) (h : c ≤ a) :
    objSlice data a c = [] := by
  unfold objSlice
  rw [show (c - a).toNat = 0 from by omega, List.take_zero]

theorem mergeAcc_strict (limit : Int) :
    ∀ (l : List Rng) (cur : Rng),
      List.Chain' (fun a b => a.end_ ≤ b.start) (cur :: l) →
      (∀ r ∈ cur :: l, r.start < r.end_) →
      ∀ r ∈ mergeAcc limit cur l, r.start < r.end_ := by
  intro l
  induction l with
  | nil =>
    intro cur _ hwf r hr
    rw [show mergeAcc limit cur [] = [cur] from rfl, List.mem_singleton] at hr
    rw [hr]
    exact hwf cur (by simp)
  | cons r rs ih =>
    intro cur hch hwf x hx
    rw [List.chain'_cons] at hch
    have hcur : cur.start < cur.end_ := hwf cur (by simp)
    have hr : r.start < r.end_ := hwf r (by simp)
    by_cases hm : r.start - cur.end_ ≤ limit
    · rw [show mergeAcc limit cur (r :: rs) =
          mergeAcc limit ⟨cur.start, r.end_⟩ rs from by simp [mergeAcc, hm]] at hx
      refine ih ⟨cur.start, r.end_⟩ ?_ ?_ x hx
      · rw [List.chain'_cons'] at hch ⊢
        exact ⟨fun b hb => hch.2.1 b hb, hch.2.2⟩
      · intro y hy
        rcases List.mem_cons.mp hy with h | h
        · rw [h]; show cur.start < r.end_; omega
        · exact hwf y (by simp [h])
    · rw [show mergeAcc limit cur (r :: rs) =
          cur :: mergeAcc limit r rs from by simp [mergeAcc, hm]] at hx
      rcases List.mem_cons.mp hx with h | h
      · rw [h]; exact hcur
      · exact ih r hch.2 (fun y hy => hwf y (by simp [hy])) x h

theorem mergeAcc_boundsPQ (P Q : Int → Prop) (limit : Int) :
    ∀ (l : List Rng) (cur : Rng),
      (∀ r ∈ cur :: l, P r.start) → (∀ r ∈ cur :: l, Q r.end_) →
      ∀ r ∈ mergeAcc limit cur l, P r.start ∧ Q r.end_ := by
  intro l
  induction l with
  | nil =>
    intro cur hP hQ r hr
    rw [show mergeAcc limit cur [] = [cur] from rfl, List.mem_singleton] at hr
    rw [hr]
    exact ⟨hP cur (by simp), hQ cur (by simp)⟩
  | cons r rs ih =>
    intro cur hP hQ x hx
    by_cases hm : r.start - cur.end_ ≤ limit
    · rw [show mergeAcc limit cur (r :: rs) =
          mergeAcc limit ⟨cur.start, r.end_⟩ rs from by simp [mergeAcc, hm]] at hx
      refine ih ⟨cur.start, r.end_⟩ ?_ ?_ x hx
      · intro y hy
        rcases List.mem_cons.mp hy with h | h
        · rw [h]; exact hP cur (by simp)
        · exact hP y (by simp [h])
      · intro y hy
        rcases List.mem_cons.mp hy with h | h
        · rw [h]; exact hQ r (by simp)
        · exact hQ y (by simp [h])
    · rw [show mergeAcc limit cur (r :: rs) =
          cur :: mergeAcc limit r rs from by simp [mergeAcc, hm]] at hx
      rcases List.mem_cons.mp hx with h | h
      · rw [h]; exact ⟨hP cur (by simp), hQ cur (by simp)⟩
      · exact ih r (fun y hy => hP y (by simp [hy]))
          (fun y hy => hQ y (by simp [hy])) x h

theorem mergeAcc_cover (limit : Int) :
    ∀ (l : List Rng) (cur : Rng),
      List.Chain' (fun a b => a.end_ ≤ b.start) (cur :: l) →
      (∀ r ∈ cur :: l, r.start ≤ r.end_) →
      ∀ r0 ∈ cur :: l, ∃ r ∈ mergeAcc limit cur l,
        r.start ≤ r0.start ∧ r0.end_ ≤ r.end_ := by
  intro l
  induction l with
  | nil =>
    intro cur _ _ r0 hr0
    rw [List.mem_singleton] at hr0
    rw [hr0]
    exact ⟨cur, by simp [mergeAcc], le_refl _, le_refl _⟩
  | cons r rs ih =>
    intro cur hch hwf r0 hr0
    rw [List.chain'_cons] at hch
    have hcr : cur.end_ ≤ r.start := hch.1
    have hcur : cur.start ≤ cur.end_ := hwf cur (by simp)
    have hr : r.start ≤ r.end_ := hwf r (by simp)
    by_cases hm : r.start - cur.end_ ≤ limit
    · have hch' : List.Chain' (fun a b => a.end_ ≤ b.start)
          ((⟨cur.start, r.end_⟩ : Rng) :: rs) := by
        rw [List.chain'_cons'] at hch ⊢
        exact ⟨fun b hb => hch.2.1 b hb, hch.2.2⟩
      have hwf' : ∀ x ∈ (⟨cur.start, r.end_⟩ : Rng) :: rs, x.start ≤ x.end_ := by
        intro x hx
        rcases List.mem_cons.mp hx with h | h
        · rw [h]; show cur.start ≤ r.end_; omega
        · exact hwf x (by simp [h])
      have hout : mergeAcc limit cur (r :: rs) =
          mergeAcc limit ⟨cur.start, r.end_⟩ rs := by simp [mergeAcc, hm]
      obtain ⟨rr, hrr, h1, h2⟩ := ih ⟨cur.start, r.end_⟩ hch' hwf'
        ⟨cur.start, r.end_⟩ (by simp)
      simp only at h1 h2
      rcases List.mem_cons.mp hr0 with h | h
      · rw [h]
        exact ⟨rr, by rw [hout]; exact hrr, h1, by omega⟩
      rcases List.mem_cons.mp h with h | h
      · rw [h]
        exact ⟨rr, by rw [hout]; exact hrr, by omega, by omega⟩
      · obtain ⟨rr2, hrr2, h21, h22⟩ := ih ⟨cur.start, r.end_⟩ hch' hwf' r0
          (by simp [h])
        exact ⟨rr2, by rw [hout]; exact hrr2, h21, h22⟩
    · have hout : mergeAcc limit cur (r :: rs) =
          cur :: mergeAcc limit r rs := by simp [mergeAcc, hm]
      rcases List.mem_cons.mp hr0 with h | h
      · rw [h]
        exact ⟨cur, by rw [hout]; simp, le_refl _, le_refl _⟩
      · obtain ⟨rr, hrr, h1, h2⟩ := ih r hch.2
          (fun y hy => hwf y (by simp [hy])) r0 h
        exact ⟨rr, by rw [hout]; simp [hrr], h1, h2⟩

/-- All the invariants the range engine needs, preserved by one merging
pass. -/
theorem mergeRanges_preserves (P Q : Int → Prop) (limit : Int) (hlim : 0 ≤ limit)
    (l : List Rng) (hchain : sortedDisjoint l)
    (hstrict : ∀ r ∈ l, r.start < r.end_)
    (hPQ : ∀ r ∈ l, P r.start ∧ Q r.end_) :
    sortedDisjoint (mergeRanges l limit) ∧
      (∀ r ∈ mergeRanges l limit, r.start < r.end_) ∧
      (∀ r ∈ mergeRanges l limit, P r.start ∧ Q r.end_) ∧
      (∀ r0 ∈ l, ∃ r ∈ mergeRanges l limit,
        r.start ≤ r0.start ∧ r0.end_ ≤ r.end_) := by
  cases l with
  | nil =>
    exact ⟨List.chain'_nil, by simp [mergeRanges], by simp [mergeRanges],
      by simp⟩
  | cons a t =>
    refine ⟨?_, ?_, ?_, ?_⟩
    · exact (mergeAcc_chain_gap limit t a).imp (fun h => by omega)
    · exact mergeAcc_strict limit t a hchain hstrict
    · exact mergeAcc_boundsPQ P Q limit t a
        (fun r hr => (hPQ r hr).1) (fun r hr => (hPQ r hr).2)
    · exact mergeAcc_cover limit t a hchain
        (fun r hr => le_of_lt (hstrict r hr))

/-- The same invariants, preserved by the whole doubling-tolerance loop. -/
theorem mergeLoopN_preserves (P Q : Int → Prop) (maxSub : Int) :
    ∀ (n : Nat) (l : List Rng) (limit : Int), 0 ≤ limit →
      sortedDisjoint l → (∀ r ∈ l, r.start < r.end_) →
      (∀ r ∈ l, P r.start ∧ Q r.end_) →
      sortedDisjoint (mergeLoopN maxSub n l limit) ∧
        (∀ r ∈ mergeLoopN maxSub n l limit, r.start < r.end_) ∧
        (∀ r ∈ mergeLoopN maxSub n l limit, P r.start ∧ Q r.end_) ∧
        (∀ r0 ∈ l, ∃ r ∈ mergeLoopN maxSub n l limit,
          r.start ≤ r0.start ∧ r0.end_ ≤ r.end_) := by
  intro n
  induction n with
  | zero =>
    intro l limit _ hchain hstrict hPQ
    exact ⟨hchain, hstrict, hPQ,
      fun r0 hr0 => ⟨r0, hr0, le_refl _, le_refl _⟩⟩
  | succ n ih =>
    intro l limit hlim hchain hstrict hPQ
    by_cases hc : 0 < maxSub ∧ maxSub < (l.length : Int)
    · rw [mergeLoopN_succ_of_pos maxSub n l limit hc]
      obtain ⟨c1, c2, c3, c4⟩ := mergeRanges_preserves P Q limit hlim l
        hchain hstrict hPQ
      obtain ⟨d1, d2, d3, d4⟩ := ih (mergeRanges l limit) (limit * 2)
        (by omega) c1 c2 c3
      refine ⟨d1, d2, d3, ?_⟩
      intro r0 hr0
      obtain ⟨r1, hr1, h11, h12⟩ := c4 r0 hr0
      obtain ⟨r2, hr2, h21, h22⟩ := d4 r1 hr1
      exact ⟨r2, hr2, le_trans h21 h11, le_trans h12 h22⟩
    · rw [mergeLoopN_fix maxSub l limit hc]
      exact ⟨hchain, hstrict, hPQ,
        fun r0 hr0 => ⟨r0, hr0, le_refl _, le_refl _⟩⟩

theorem alignedOffs_pairwise (s e sub : Int) (hsub : 1 ≤ sub) :
    List.Pairwise (fun a b => a + sub ≤ b) (alignedOffs s e sub) := by
  rw [alignedOffs]
  refine List.Pairwise.map _ ?_ (List.pairwise_lt_range _)
  intro i j hij
  have h1 : (i : Int) + 1 ≤ (j : Int) := by exact_mod_cast hij
  nlinarith

theorem mem_missingRanges (hits : Int → Option (List Nat)) (offs : List Int)
    (sub : Int) (r : Rng) :
    r ∈ missingRanges hits offs sub ↔
      ∃ off ∈ offs, hits off = none ∧ r = ⟨off, off + sub⟩ := by
  rw [missingRanges, List.mem_filterMap]
  constructor
  · rintro ⟨off, hoff, hsome⟩
    by_cases h : hits off = none
    · rw [if_pos h] at hsome
      exact ⟨off, hoff, h, (Option.some_inj.mp hsome).symm⟩
    · rw [if_neg h] at hsome
      exact absurd hsome (by simp)
  · rintro ⟨off, hoff, hnone, rfl⟩
    exact ⟨off, hoff, by rw [if_pos hnone]⟩

theorem missingRanges_sorted (hits : Int → Option (List Nat)) (s e sub : Int)
    (hsub : 1 ≤ sub) :
    sortedDisjoint (missingRanges hits (alignedOffs s e sub) sub) := by
  refine List.Pairwise.chain' ?_
  refine List.Pairwise.filterMap _ ?_ (alignedOffs_pairwise s e sub hsub)
  intro a a' hle b hb b' hb'
  have hba : b = ⟨a, a + sub⟩ := by
    by_cases h : hits a = none
    · rw [if_pos h] at hb; simpa using hb.symm
    · rw [if_neg h] at hb; simp at hb
  have hba' : b' = ⟨a', a' + sub⟩ := by
    by_cases h : hits a' = none
    · rw [if_pos h] at hb'; simpa using hb'.symm
    · rw [if_neg h] at hb'; simp at hb'
  rw [hba, hba']
  exact hle

/-- Window geometry of `cachedGetRange`: all facts the engine's invariants
rest on, for a positive subrange size, non-negative offset, and positive
requested length. -/
theorem range_geometry (size offset length sub : Int) (hsub : 1 ≤ sub)
    (hoff : 0 ≤ offset) (hlen : 0 < length) (hsize : 0 ≤ size) :
    let clen := clampedLength size offset length
    let W := offset + clen
    let s := startRange offset sub
    let e := endRange offset clen sub
    let lastOff := lastSubrangeOffset size offset clen sub
    let lastLen := lastSubrangeLength size offset clen sub
    W ≤ size ∧ 0 ≤ W ∧
      sub ∣ s ∧ 0 ≤ s ∧ s ≤ offset ∧ offset < s + sub ∧
      sub ∣ e ∧ W ≤ e ∧ e < W + sub ∧
      sub ∣ lastOff ∧ e - sub ≤ lastOff ∧
      lastOff + lastLen = min e size ∧ 0 < lastLen ∧ lastLen ≤ sub ∧
      lastOff < size := by
  intro clen W s e lastOff lastLen
  have hWs : W ≤ size := by
    show offset + clampedLength size offset length ≤ size
    rw [clampedLength]
    split <;> omega
  have hW0 : 0 ≤ W := by
    show 0 ≤ offset + clampedLength size offset length
    rw [clampedLength]
    split <;> omega
  have hAo := align_le offset sub (by omega)
  have hAW := align_le W sub (by omega)
  have hAz := align_le size sub (by omega)
  have hdo : sub ∣ offset / sub * sub := dvd_mul_left sub _
  have hdW : sub ∣ W / sub * sub := dvd_mul_left sub _
  have hdz : sub ∣ size / sub * sub := dvd_mul_left sub _
  have hs : s = offset / sub * sub := rfl
  have he : e = if W % sub > 0 then W / sub * sub + sub else W / sub * sub := rfl
  have hWmod : W % sub = W - W / sub * sub := by
    have h := Int.ediv_add_emod W sub
    rw [mul_comm] at h
    omega
  have hmono : W / sub * sub ≤ size / sub * sub :=
    ediv_mul_mono W size sub (by omega) hWs
  refine ⟨hWs, hW0, hs ▸ hdo, ?_, hs ▸ hAo.1, hs ▸ hAo.2, ?_, ?_, ?_, ?_⟩
  · rw [hs]
    positivity
  · rw [he]
    split
    · exact Dvd.dvd.add hdW dvd_rfl
    · exact hdW
  · rw [he]
    split <;> omega
  · rw [he]
    split <;> omega
  · -- facts about the last subrange
    have hl : lastOff = if e > size then size / sub * sub else e - sub := rfl
    have hll : lastLen = if e > size then size - size / sub * sub else sub := rfl
    by_cases hcase : e > size
    · -- the window overruns the object: e = lastOff + sub and the last
      -- subrange is the object's final partial subrange
      have heW : W % sub > 0 := by
        by_contra hzero
        rw [he, if_neg hzero] at hcase
        omega
      have heq : W / sub * sub = size / sub * sub := by
        by_contra hne
        have hlt : W / sub * sub < size / sub * sub := by omega
        have : W / sub * sub + sub ≤ size / sub * sub := by
          refine le_of_dvd_lt sub _ _ hsub ?_ hlt
          exact Dvd.dvd.sub hdz hdW
        rw [he, if_pos heW] at hcase
        omega
      rw [hl, if_pos hcase, hll, if_pos hcase, he, if_pos heW]
      rw [he, if_pos heW] at hcase
      refine ⟨hdz, by omega, ?_, by omega, by omega, by omega⟩
      rw [min_eq_right (by omega : size ≤ W / sub * sub + sub)]
      omega
    · rw [hl, if_neg hcase, hll, if_neg hcase]
      push_neg at hcase
      refine ⟨(Dvd.dvd.sub ?_ dvd_rfl), by omega, ?_, by omega, by omega, by omega⟩
      · rw [he]
        split
        · exact Dvd.dvd.add hdW dvd_rfl
        · exact hdW
      · rw [min_eq_left hcase]
        omega

/-- When the window does not overrun the object, the last subrange is a
full one. -/
theorem lastLen_of_le (size offset clen sub : Int)
    (h : endRange offset clen sub ≤ size) :
    lastSubrangeLength size offset clen sub = sub := by
  rw [lastSubrangeLength, if_neg (by omega)]

/-- The slice-and-store loop succeeds when every processed offset has a
generated key, and it extends the hits map monotonically with the given
subrange values, covering every processed offset. -/
theorem storeSubranges_spec (data : List Nat) (sub lastOff lastLen mstart : Int)
    (buf : List Nat) (keys : List Int) :
    ∀ (offlist : List Int) (hits : Int → Option (List Nat)),
      (∀ off ∈ offlist, off ∈ keys) →
      (∀ off ∈ offlist,
        (if off = lastOff then (buf.drop (off - mstart).toNat).take lastLen.toNat
         else (buf.drop (off - mstart).toNat).take sub.toNat) =
          objSlice data off (min (off + sub) (attrsSize data))) →
      ∃ hits2,
        storeSubranges buf mstart sub lastOff lastLen keys hits offlist =
            some hits2 ∧
          (∀ o, (hits o).isSome → hits2 o = hits o) ∧
          (∀ o ∈ offlist, (hits2 o).isSome) ∧
          (∀ o, o ∉ offlist → hits2 o = hits o) ∧
          ((∀ o b, hits o = some b →
              b = objSlice data o (min (o + sub) (attrsSize data))) →
            ∀ o b, hits2 o = some b →
              b = objSlice data o (min (o + sub) (attrsSize data))) := by
  intro offlist
  induction offlist with
  | nil =>
    intro hits _ _
    exact ⟨hits, rfl, fun o _ => rfl, by simp, fun o _ => rfl, fun h => h⟩
  | cons off rest ih =>
    intro hits hk hslice
    have hoffk : off ∈ keys := hk off (by simp)
    cases hh : hits off with
    | some v =>
      obtain ⟨hits2, h1, h2, h3, h4, h5⟩ := ih hits
        (fun o ho => hk o (by simp [ho])) (fun o ho => hslice o (by simp [ho]))
      refine ⟨hits2, ?_, h2, ?_, ?_, h5⟩
      · rw [show storeSubranges buf mstart sub lastOff lastLen keys hits
            (off :: rest) =
            storeSubranges buf mstart sub lastOff lastLen keys hits rest from by
          simp [storeSubranges, hoffk, hh]]
        exact h1
      · intro o ho
        rcases List.mem_cons.mp ho with h | h
        · rw [h, h2 off (by rw [hh]; rfl), hh]; rfl
        · exact h3 o h
      · intro o ho
        exact h4 o (fun hmem => ho (by simp [hmem]))
    | none =>
      set hits' := fun o =>
        if o = off then
          some (if off = lastOff
            then (buf.drop (off - mstart).toNat).take lastLen.toNat
            else (buf.drop (off - mstart).toNat).take sub.toNat)
        else hits o with hhits'
      obtain ⟨hits2, h1, h2, h3, h4, h5⟩ := ih hits'
        (fun o ho => hk o (by simp [ho])) (fun o ho => hslice o (by simp [ho]))
      have hstep : storeSubranges buf mstart sub lastOff lastLen keys hits
          (off :: rest) =
          storeSubranges buf mstart sub lastOff lastLen keys hits' rest := by
        rw [storeSubranges]
        rw [if_pos hoffk, hh]
      refine ⟨hits2, by rw [hstep]; exact h1, ?_, ?_, ?_, ?_⟩
      · intro o ho
        have hne : ¬(o = off) := by
          intro he; rw [he, hh] at ho; simp at ho
        have : hits' o = hits o := by rw [hhits']; simp [hne]
        rw [h2 o (by rw [this]; exact ho), this]
      · intro o ho
        rcases List.mem_cons.mp ho with h | h
        · have : (hits' o).isSome := by rw [hhits']; simp [h]
          rw [h2 o this, hhits']
          simp [h]
        · exact h3 o h
      · intro o ho
        have hne : ¬(o = off) := fun he => ho (by simp [he])
        have hrest : o ∉ rest := fun hm => ho (by simp [hm])
        rw [h4 o hrest, hhits']
        simp [hne]
      · intro hgood o b hb
        refine h5 ?_ o b hb
        intro o' b' hb'
        simp only [hhits'] at hb'
        by_cases he : o' = off
        · rw [if_pos he] at hb'
          have := hslice off (by simp)
          rw [he]
          rw [← Option.some_inj.mp hb']
          exact this
        · rw [if_neg he] at hb'
          exact hgood o' b' hb'

/-- One gap fetch succeeds for an aligned gap inside the window: the
`ReadFull` buffer size matches the bytes the store returns, and the
slice-and-store loop extends the hits map with exactly the object's bytes
for every subrange offset of the gap. -/
theorem fetchRange_spec (data : List Nat) (sub s e lastOff lastLen : Int)
    (hsub : 1 ≤ sub) (hs0 : 0 ≤ s)
    (hds : sub ∣ s) (hde : sub ∣ e) (hdlast : sub ∣ lastOff)
    (hlast1 : e - sub ≤ lastOff)
    (hlastsum : lastOff + lastLen = min e (attrsSize data))
    (hlastlt : lastOff < attrsSize data)
    (hlenle : lastLen ≤ sub)
    (m : Rng) (hdm1 : sub ∣ m.start) (hdm2 : sub ∣ m.end_)
    (hm1 : s ≤ m.start) (hm2 : m.end_ ≤ e) (hm3 : m.start < m.end_)
    (hits : Int → Option (List Nat)) :
    ∃ hits2,
      fetchRange data sub lastOff lastLen (alignedOffs s e sub) hits m =
          some hits2 ∧
        (∀ o, (hits o).isSome → hits2 o = hits o) ∧
        (∀ off, sub ∣ off → m.start ≤ off → off < m.end_ →
          (hits2 off).isSome) ∧
        (∀ o, ¬(sub ∣ o ∧ m.start ≤ o ∧ o < m.end_) → hits2 o = hits o) ∧
        ((∀ o b, hits o = some b →
            b = objSlice data o (min (o + sub) (attrsSize data))) →
          ∀ o b, hits2 o = some b →
            b = objSlice data o (min (o + sub) (attrsSize data))) := by
  have hsize0 : 0 ≤ attrsSize data := Int.natCast_nonneg _
  set size := attrsSize data with hsizedef
  have hms0 : 0 ≤ m.start := le_trans hs0 hm1
  have hmstep : m.start + sub ≤ m.end_ :=
    le_of_dvd_lt sub _ _ hsub (Dvd.dvd.sub hdm2 hdm1) hm3
  have hmslt : m.start < size := by
    have : m.start + sub ≤ e := le_trans hmstep hm2
    omega
  have hmend_le : m.end_ ≤ lastOff + sub := by omega
  have hbufSize :
      (if lastOff ≥ m.end_ then m.end_ - m.start
       else (m.end_ - m.start) - sub + lastLen) = min m.end_ size - m.start := by
    by_cases hLe : lastOff ≥ m.end_
    · rw [if_pos hLe, min_eq_left (by omega)]
    · rw [if_neg hLe]
      push_neg at hLe
      have hlastm : lastOff = m.end_ - sub := by
        have h1 : m.end_ - sub ≤ lastOff := by omega
        have h2 : lastOff + sub ≤ m.end_ :=
          le_of_dvd_lt sub _ _ hsub (Dvd.dvd.sub hdm2 hdlast) hLe
        omega
      have hmende : m.end_ = e := by omega
      rw [hmende, ← hlastsum, hmende] at *
      omega
  have hfetchlen : ((objSlice data m.start (min m.end_ size)).length : Int) =
      min m.end_ size - m.start := by
    refine objSlice_length data m.start (min m.end_ size) hms0 ?_ ?_
    · omega
    · omega
  have hbufNat : (min m.end_ size - m.start).toNat =
      (objSlice data m.start (min m.end_ size)).length := by omega
  have htake : (objSlice data m.start (min m.end_ size)).take
      (min m.end_ size - m.start).toNat = objSlice data m.start (min m.end_ size) := by
    rw [hbufNat, List.take_length]
  -- the per-offset slice identity for the store loop
  have hslice : ∀ off ∈ alignedOffs m.start m.end_ sub,
      (if off = lastOff then
        ((objSlice data m.start (min m.end_ size)).drop
          (off - m.start).toNat).take lastLen.toNat
       else
        ((objSlice data m.start (min m.end_ size)).drop
          (off - m.start).toNat).take sub.toNat) =
        objSlice data off (min (off + sub) size) := by
    intro off hoff
    rw [mem_alignedOffs m.start m.end_ sub off hsub hdm1 hdm2] at hoff
    obtain ⟨hdoff, hoff1, hoff2⟩ := hoff
    by_cases hlast : off = lastOff
    · rw [if_pos hlast]
      have hLe : lastOff < m.end_ := by omega
      have hlastm : lastOff = m.end_ - sub := by
        have h1 : m.end_ - sub ≤ lastOff := by omega
        have h2 : lastOff + sub ≤ m.end_ :=
          le_of_dvd_lt sub _ _ hsub (Dvd.dvd.sub hdm2 hdlast) hLe
        omega
      have hmende : m.end_ = e := by omega
      have hsum : off + lastLen = min m.end_ size := by
        rw [hmende, hlast, hlastsum]
      have hminoff : min (off + sub) size = off + lastLen := by
        have hoffsub : off + sub = e := by omega
        rw [hoffsub, hsum, hmende]
      rw [hminoff]
      refine objSlice_sub data m.start (min m.end_ size) off lastLen hms0 hoff1
        ?_ (by omega)
      have := hlastsum
      omega
    · rw [if_neg hlast]
      have hoffle : off ≤ lastOff := by
        have : off + sub ≤ m.end_ :=
          le_of_dvd_lt sub _ _ hsub (Dvd.dvd.sub hdm2 hdoff) hoff2
        omega
      have hofflt : off < lastOff := by omega
      have hoffsub : off + sub ≤ lastOff :=
        le_of_dvd_lt sub _ _ hsub (Dvd.dvd.sub hdlast hdoff) hofflt
      have hoffendsub : off + sub ≤ m.end_ :=
        le_of_dvd_lt sub _ _ hsub (Dvd.dvd.sub hdm2 hdoff) hoff2
      have hmin : min (off + sub) size = off + sub := min_eq_left (by omega)
      rw [hmin]
      exact objSlice_sub data m.start (min m.end_ size) off sub hms0 hoff1
        (by omega) (by omega)
  obtain ⟨hits2, hrun, hmono, hcover, hout, hgood⟩ :=
    storeSubranges_spec data sub lastOff lastLen m.start
      (objSlice data m.start (min m.end_ size)) (alignedOffs s e sub)
      (alignedOffs m.start m.end_ sub) hits
      (by
        intro off hoff
        rw [mem_alignedOffs m.start m.end_ sub off hsub hdm1 hdm2] at hoff
        rw [mem_alignedOffs s e sub off hsub hds hde]
        exact ⟨hoff.1, by omega, by omega⟩)
      hslice
  refine ⟨hits2, ?_, hmono, ?_, ?_, hgood⟩
  · show fetchRange data sub lastOff lastLen (alignedOffs s e sub) hits m =
      some hits2
    simp only [fetchRange]
    rw [← hsizedef, hbufSize]
    rw [if_pos (le_of_eq (by omega))]
    rw [htake]
    exact hrun
  · intro off hd h1 h2
    refine hcover off ?_
    rw [mem_alignedOffs m.start m.end_ sub off hsub hdm1 hdm2]
    exact ⟨hd, h1, h2⟩
  · intro o ho
    refine hout o ?_
    rw [mem_alignedOffs m.start m.end_ sub o hsub hdm1 hdm2]
    exact ho

/-- The whole missing-gap fetch succeeds for a list of aligned gaps inside
the window, covering every subrange offset of every gap. -/
theorem fetchMissing_spec (data : List Nat) (sub s e lastOff lastLen : Int)
    (hsub : 1 ≤ sub) (hs0 : 0 ≤ s) (hds : sub ∣ s) (hde : sub ∣ e)
    (hdlast : sub ∣ lastOff) (hlast1 : e - sub ≤ lastOff)
    (hlastsum : lastOff + lastLen = min e (attrsSize data))
    (hlastlt : lastOff < attrsSize data) (hlenle : lastLen ≤ sub) :
    ∀ (merged : List Rng) (hits : Int → Option (List Nat)),
      (∀ m ∈ merged, sub ∣ m.start ∧ sub ∣ m.end_ ∧ s ≤ m.start ∧
        m.end_ ≤ e ∧ m.start < m.end_) →
      ∃ hits2,
        fetchMissing data sub lastOff lastLen (alignedOffs s e sub) hits
            merged = some hits2 ∧
          (∀ o, (hits o).isSome → hits2 o = hits o) ∧
          (∀ m ∈ merged, ∀ off, sub ∣ off → m.start ≤ off → off < m.end_ →
            (hits2 off).isSome) ∧
          ((∀ o b, hits o = some b →
              b = objSlice data o (min (o + sub) (attrsSize data))) →
            ∀ o b, hits2 o = some b →
              b = objSlice data o (min (o + sub) (attrsSize data))) := by
  intro merged
  induction merged with
  | nil =>
    intro hits _
    exact ⟨hits, rfl, fun o _ => rfl, by simp, fun h => h⟩
  | cons m ms ih =>
    intro hits hall
    obtain ⟨hdm1, hdm2, hm1, hm2, hm3⟩ := hall m (by simp)
    obtain ⟨hits1, hrun1, hmono1, hcov1, hunch1, hgood1⟩ :=
      fetchRange_spec data sub s e lastOff lastLen hsub hs0 hds hde hdlast
        hlast1 hlastsum hlastlt hlenle m hdm1 hdm2 hm1 hm2 hm3 hits
    obtain ⟨hits2, hrun2, hmono2, hcov2, hgood2⟩ :=
      ih hits1 (fun x hx => hall x (by simp [hx]))
    refine ⟨hits2, ?_, ?_, ?_, ?_⟩
    · rw [show fetchMissing data sub lastOff lastLen (alignedOffs s e sub)
          hits (m :: ms) =
          fetchMissing data sub lastOff lastLen (alignedOffs s e sub) hits1
            ms from by rw [fetchMissing, hrun1]]
      exact hrun2
    · intro o ho
      rw [hmono2 o (by rw [hmono1 o ho]; exact ho), hmono1 o ho]
    · intro x hx off hd h1 h2
      rcases List.mem_cons.mp hx with h | h
      · rw [h] at h1 h2
        have hsome : (hits1 off).isSome := hcov1 off hd h1 h2
        rw [hmono2 off hsome]
        exact hsome
      · exact hcov2 x h off hd h1 h2
    · intro hg
      exact hgood2 (hgood1 hg)

/-- Draining the assembled reader over a total, correct subrange map yields
exactly the object's bytes for the remaining window. -/
theorem drainLoop_spec (data : List Nat) (sub s e : Int)
    (subranges : Int → Option (List Nat))
    (hsub : 1 ≤ sub) (hds : sub ∣ s) (hde : sub ∣ e) (hs0 : 0 ≤ s)
    (hgood : ∀ o ∈ alignedOffs s e sub,
      subranges o = some (objSlice data o (min (o + sub) (attrsSize data)))) :
    ∀ (fuel : Nat) (ro remaining : Int),
      remaining.toNat < fuel → s ≤ ro →
      ro + remaining ≤ attrsSize data → ro + remaining ≤ e →
      drainLoop sub (alignedOffs s e sub) subranges fuel ro remaining =
        some (objSlice data ro (ro + remaining)) := by
  intro fuel
  induction fuel with
  | zero => intro ro remaining h _ _ _; omega
  | succ fuel ih =>
    intro ro remaining hfuel hsro hrosize hroe
    rw [drainLoop]
    by_cases hr : remaining ≤ 0
    · rw [if_pos hr, objSlice_of_nonpos data ro (ro + remaining) (by omega)]
    · rw [if_neg hr]
      have hro0 : 0 ≤ ro := le_trans hs0 hsro
      have hA := align_le ro sub (by omega)
      have hdcur : sub ∣ ro / sub * sub := dvd_mul_left sub _
      have hscur : s ≤ ro / sub * sub := by
        have h1 : s / sub * sub ≤ ro / sub * sub :=
          ediv_mul_mono s ro sub (by omega) hsro
        rwa [Int.ediv_mul_cancel hds] at h1
      have hcurlt : ro / sub * sub < e := by omega
      have hmem : ro / sub * sub ∈ alignedOffs s e sub := by
        rw [mem_alignedOffs s e sub _ hsub hds hde]
        exact ⟨hdcur, hscur, hcurlt⟩
      have hrosz : ro < attrsSize data := by omega
      have hblen : ((objSlice data (ro / sub * sub)
          (min (ro / sub * sub + sub) (attrsSize data))).length : Int) =
          min (ro / sub * sub + sub) (attrsSize data) - ro / sub * sub := by
        refine objSlice_length data _ _ (by omega) (by omega) (by omega)
      split
      next heq =>
        exfalso
        rw [if_pos hmem, hgood _ hmem] at heq
        exact Option.noConfusion heq
      next b heq =>
        rw [if_pos hmem, hgood _ hmem] at heq
        have hb := (Option.some_inj.mp heq).symm
        subst hb
        rw [if_neg (by omega)]
        set tc := min (((objSlice data (ro / sub * sub)
            (min (ro / sub * sub + sub) (attrsSize data))).length : Int) -
            (ro - ro / sub * sub)) remaining with htc
        have htc1 : 1 ≤ tc := by rw [htc]; omega
        have htcle : tc ≤ remaining := by rw [htc]; omega
        have htccap : ro + tc ≤ min (ro / sub * sub + sub) (attrsSize data) := by
          rw [htc]; omega
        split
        next hrec =>
          exfalso
          rw [ih (ro + tc) (remaining - tc) (by omega) (by omega) (by omega)
            (by omega)] at hrec
          exact Option.noConfusion hrec
        next rest hrec =>
          rw [ih (ro + tc) (remaining - tc) (by omega) (by omega) (by omega)
            (by omega)] at hrec
          rw [← Option.some_inj.mp hrec]
          rw [objSlice_sub data (ro / sub * sub)
            (min (ro / sub * sub + sub) (attrsSize data)) ro tc (by omega)
            (by omega) (by omega) (by omega)]
          rw [show ro + tc + (remaining - tc) = ro + remaining from by ring]
          rw [objSlice_append data ro (ro + tc) (ro + remaining) hro0 (by omega)
            (by omega)]

/-- The merged gap list stays aligned, inside the window, and covers every
missing subrange. -/
theorem mergedGaps_spec (hits : Int → Option (List Nat)) (s e sub maxSub : Int)
    (hsub : 1 ≤ sub) (hds : sub ∣ s) (hde : sub ∣ e) :
    (∀ m ∈ mergedGaps (missingRanges hits (alignedOffs s e sub) sub) sub maxSub,
      sub ∣ m.start ∧ sub ∣ m.end_ ∧ s ≤ m.start ∧ m.end_ ≤ e ∧
        m.start < m.end_) ∧
    (∀ off ∈ alignedOffs s e sub, hits off = none →
      ∃ m ∈ mergedGaps (missingRanges hits (alignedOffs s e sub) sub) sub maxSub,
          m.start ≤ off ∧ off + sub ≤ m.end_) := by
  have hsorted := missingRanges_sorted hits s e sub hsub
  have hstrict : ∀ r ∈ missingRanges hits (alignedOffs s e sub) sub,
      r.start < r.end_ := by
    intro r hr
    rw [mem_missingRanges] at hr
    obtain ⟨off, _, _, rfl⟩ := hr
    simp only
    omega
  have hPQ : ∀ r ∈ missingRanges hits (alignedOffs s e sub) sub,
      (sub ∣ r.start ∧ s ≤ r.start) ∧ (sub ∣ r.end_ ∧ r.end_ ≤ e) := by
    intro r hr
    rw [mem_missingRanges] at hr
    obtain ⟨off, hoff, _, rfl⟩ := hr
    rw [mem_alignedOffs s e sub off hsub hds hde] at hoff
    obtain ⟨hdoff, h1, h2⟩ := hoff
    refine ⟨⟨hdoff, h1⟩, ⟨Dvd.dvd.add hdoff dvd_rfl, ?_⟩⟩
    exact le_of_dvd_lt sub off e hsub (Dvd.dvd.sub hde hdoff) h2
  obtain ⟨c1, c2, c3, c4⟩ := mergeRanges_preserves
    (fun x => sub ∣ x ∧ s ≤ x) (fun y => sub ∣ y ∧ y ≤ e) 0 (le_refl 0)
    (missingRanges hits (alignedOffs s e sub) sub) hsorted hstrict hPQ
  obtain ⟨d1, d2, d3, d4⟩ := mergeLoopN_preserves
    (fun x => sub ∣ x ∧ s ≤ x) (fun y => sub ∣ y ∧ y ≤ e) maxSub
    ((maxGap (mergeRanges (missingRanges hits (alignedOffs s e sub) sub) 0) + 1).toNat + 1)
    (mergeRanges (missingRanges hits (alignedOffs s e sub) sub) 0) sub
    (by omega) c1 c2 c3
  constructor
  · intro m hm
    obtain ⟨⟨p1, p2⟩, ⟨q1, q2⟩⟩ := d3 m hm
    exact ⟨p1, q1, p2, q2, d2 m hm⟩
  · intro off hoff hnone
    have hmem : (⟨off, off + sub⟩ : Rng) ∈
        missingRanges hits (alignedOffs s e sub) sub := by
      rw [mem_missingRanges]
      exact ⟨off, hoff, hnone, rfl⟩
    obtain ⟨r1, hr1, h11, h12⟩ := c4 ⟨off, off + sub⟩ hmem
    obtain ⟨r2, hr2, h21, h22⟩ := d4 r1 hr1
    refine ⟨r2, hr2, ?_, ?_⟩
    · simp only at h11
      omega
    · simp only at h12
      omega

theorem all_of_countHits (hits : Int → Option (List Nat)) :
    ∀ offs : List Int, ¬(countHits hits offs < offs.length) →
      ∀ o ∈ offs, (hits o).isSome := by
  intro offs
  induction offs with
  | nil => intro _ o ho; simp at ho
  | cons o rest ih =>
    intro hcount x hx
    rw [countHits, List.filter_cons] at hcount
    by_cases hp : (hits o).isSome
    · rw [if_pos hp] at hcount
      simp only [List.length_cons] at hcount
      rcases List.mem_cons.mp hx with h | h
      · rw [h]; exact hp
      · exact ih (by rw [countHits]; omega) x h
    · rw [if_neg hp] at hcount
      exfalso
      have := List.length_filter_le (fun o => (hits o).isSome) rest
      simp only [List.length_cons] at hcount
      omega

/-- The clamped window slice is exactly a direct store read of the
requested window. -/
theorem clamp_directRead (data : List Nat) (offset length : Int)
    (hoff : 0 ≤ offset) :
    objSlice data offset
        (offset + clampedLength (attrsSize data) offset length) =
      directRead data offset length := by
  rw [directRead, clampedLength]
  split
  next h =>
    rw [attrsSize] at h ⊢
    rw [objSlice, objSlice, List.take_eq_take]
    simp only [List.length_drop]
    omega
  next h => rfl

/-- Main correctness of the range engine: with a consistent cache, a
positive subrange size, `offset ≥ 0` and `length > 0`, `cachedGetRange`
succeeds and yields exactly the direct-read bytes of the window. -/
theorem cachedGetRange_correct (data : List Nat) (sub maxSub : Int)
    (cache : Int → Option (List Nat)) (offset length : Int)
    (hsub : 1 ≤ sub) (hoff : 0 ≤ offset) (hlen : 0 < length)
    (hcons : cacheConsistent data sub cache) :
    ∃ calls, cachedGetRange data sub maxSub cache offset length =
      some (directRead data offset length, calls) := by
  have hsize0 : (0 : Int) ≤ attrsSize data := Int.natCast_nonneg _
  obtain ⟨hWs, hW0, hds, hs0, hsoff, hsoff2, hde, hWe, hWe2, hdlast, hlast1,
    hlastsum, hlen0, hlenle, hlastlt⟩ :=
    range_geometry (attrsSize data) offset length sub hsub hoff hlen hsize0
  have hgood0 : ∀ o b,
      initialHits cache (alignedOffs (startRange offset sub)
        (endRange offset (clampedLength (attrsSize data) offset length) sub)
        sub) o = some b →
      b = objSlice data o (min (o + sub) (attrsSize data)) := by
    intro o b hb
    simp only [initialHits] at hb
    split at hb
    · exact hcons o b hb
    · exact Option.noConfusion hb
  have hmap : ∀ (x : List Nat) (f : List Nat → List Nat × List Rng),
      (some x).map f = some (f x) := fun _ _ => rfl
  by_cases hc : countHits (initialHits cache (alignedOffs (startRange offset sub)
      (endRange offset (clampedLength (attrsSize data) offset length) sub) sub))
      (alignedOffs (startRange offset sub)
        (endRange offset (clampedLength (attrsSize data) offset length) sub) sub) <
      (alignedOffs (startRange offset sub)
        (endRange offset (clampedLength (attrsSize data) offset length) sub)
        sub).length
  · refine ⟨mergedGaps (missingRanges (initialHits cache
      (alignedOffs (startRange offset sub)
        (endRange offset (clampedLength (attrsSize data) offset length) sub) sub))
      (alignedOffs (startRange offset sub)
        (endRange offset (clampedLength (attrsSize data) offset length) sub) sub)
      sub) sub maxSub, ?_⟩
    simp only [cachedGetRange]
    rw [if_pos hc]
    obtain ⟨hall, hcover⟩ := mergedGaps_spec (initialHits cache
      (alignedOffs (startRange offset sub)
        (endRange offset (clampedLength (attrsSize data) offset length) sub) sub))
      (startRange offset sub)
      (endRange offset (clampedLength (attrsSize data) offset length) sub)
      sub maxSub hsub hds hde
    obtain ⟨hits2, hrun, hmono, hcov, hgood⟩ := fetchMissing_spec data sub
      (startRange offset sub)
      (endRange offset (clampedLength (attrsSize data) offset length) sub)
      (lastSubrangeOffset (attrsSize data) offset
        (clampedLength (attrsSize data) offset length) sub)
      (lastSubrangeLength (attrsSize data) offset
        (clampedLength (attrsSize data) offset length) sub)
      hsub hs0 hds hde hdlast hlast1 hlastsum hlastlt hlenle
      (mergedGaps (missingRanges (initialHits cache
        (alignedOffs (startRange offset sub)
          (endRange offset (clampedLength (attrsSize data) offset length) sub) sub))
        (alignedOffs (startRange offset sub)
          (endRange offset (clampedLength (attrsSize data) offset length) sub) sub)
        sub) sub maxSub)
      (initialHits cache (alignedOffs (startRange offset sub)
        (endRange offset (clampedLength (attrsSize data) offset length) sub) sub))
      hall
    simp only [hrun]
    · have htotal : ∀ o ∈ alignedOffs (startRange offset sub)
          (endRange offset (clampedLength (attrsSize data) offset length) sub) sub,
          hits2 o = some (objSlice data o (min (o + sub) (attrsSize data))) := by
        intro o ho
        have hoi := ho
        rw [mem_alignedOffs _ _ _ _ hsub hds hde] at hoi
        obtain ⟨hdo, ho1, ho2⟩ := hoi
        have hsome : (hits2 o).isSome := by
          cases hh : initialHits cache (alignedOffs (startRange offset sub)
              (endRange offset (clampedLength (attrsSize data) offset length) sub)
              sub) o with
          | some v =>
            rw [hmono o (by rw [hh]; rfl), hh]
            rfl
          | none =>
            obtain ⟨m, hm, hm1, hm2⟩ := hcover o ho hh
            exact hcov m hm o hdo (by omega) (by omega)
        obtain ⟨b, hb⟩ := Option.isSome_iff_exists.mp hsome
        rw [hb]
        rw [hgood hgood0 o b hb]
      have hdrain : drainReader sub (alignedOffs (startRange offset sub)
          (endRange offset (clampedLength (attrsSize data) offset length) sub) sub)
          hits2 offset (clampedLength (attrsSize data) offset length) =
          some (objSlice data offset
            (offset + clampedLength (attrsSize data) offset length)) := by
        rw [drainReader]
        exact drainLoop_spec data sub (startRange offset sub)
          (endRange offset (clampedLength (attrsSize data) offset length) sub)
          hits2 hsub hds hde hs0 htotal
          ((clampedLength (attrsSize data) offset length).toNat + 1) offset
          (clampedLength (attrsSize data) offset length) (by omega) hsoff hWs hWe
      rw [hdrain, hmap, clamp_directRead data offset length hoff]
  · refine ⟨[], ?_⟩
    simp only [cachedGetRange]
    rw [if_neg hc]
    have hall := all_of_countHits (initialHits cache
      (alignedOffs (startRange offset sub)
        (endRange offset (clampedLength (attrsSize data) offset length) sub) sub))
      (alignedOffs (startRange offset sub)
        (endRange offset (clampedLength (attrsSize data) offset length) sub) sub)
      hc
    have htotal : ∀ o ∈ alignedOffs (startRange offset sub)
        (endRange offset (clampedLength (attrsSize data) offset length) sub) sub,
        initialHits cache (alignedOffs (startRange offset sub)
          (endRange offset (clampedLength (attrsSize data) offset length) sub)
          sub) o = some (objSlice data o (min (o + sub) (attrsSize data))) := by
      intro o ho
      obtain ⟨b, hb⟩ := Option.isSome_iff_exists.mp (hall o ho)
      rw [hb, hgood0 o b hb]
    have hdrain : drainReader sub (alignedOffs (startRange offset sub)
        (endRange offset (clampedLength (attrsSize data) offset length) sub) sub)
        (initialHits cache (alignedOffs (startRange offset sub)
          (endRange offset (clampedLength (attrsSize data) offset length) sub)
          sub)) offset (clampedLength (attrsSize data) offset length) =
        some (objSlice data offset
          (offset + clampedLength (attrsSize data) offset length)) := by
      rw [drainReader]
      exact drainLoop_spec data sub (startRange offset sub)
        (endRange offset (clampedLength (attrsSize data) offset length) sub)
        _ hsub hds hde hs0 htotal
        ((clampedLength (attrsSize data) offset length).toNat + 1) offset
        (clampedLength (attrsSize data) offset length) (by omega) hsoff hWs hWe
    rw [hdrain, hmap, clamp_directRead data offset length hoff]

/-- C1: for a fixed object, a cache state consistent with it, a matching
range config with positive subrange size, `offset ≥ 0` and `length > 0`,
`cachedGetRange` succeeds and its reader yields byte-identical content to
a direct read of the window `[offset, offset+length)` from the underlying
store, no matter which subset of the touched subranges was cached. -/
theorem cachedGetRange_C1 (data : List Nat) (sub maxSub : Int)
    (cache : Int → Option (List Nat)) (offset length : Int)
    (hsub : 1 ≤ sub) (hoff : 0 ≤ offset) (hlen : 0 < length)
    (hcons : cacheConsistent data sub cache) :
    ∃ calls, cachedGetRange data sub maxSub cache offset length =
      some (directRead data offset length, calls) :=
  cachedGetRange_correct data sub maxSub cache offset length hsub hoff hlen hcons

/-- Witness for `cachedGetRange_C1` at a concrete object and half-warm
cache. -/
theorem cachedGetRange_C1_witness :
    ∃ calls, cachedGetRange (List.range 35) 10 4
        (fun o => if o = 10 then some (objSlice (List.range 35) 10 20) else none)
        5 28 =
      some (directRead (List.range 35) 5 28, calls) :=
  cachedGetRange_C1 (List.range 35) 10 4
    (fun o => if o = 10 then some (objSlice (List.range 35) 10 20) else none)
    5 28 (by decide) (by decide) (by decide)
    (by
      intro o b hb
      change (if o = 10 then some (objSlice (List.range 35) 10 20) else none) =
        some b at hb
      split at hb
      next h =>
        rw [h]
        rw [← Option.some_inj.mp hb]
        rfl
      next h => exact Option.noConfusion hb)

/-- C3: whenever the missing-subrange fetch completes without error, every
subrange-aligned offset of the window `[startRange, endRange)` has an
entry in the hits map handed to the assembly reader. -/
theorem fetchMissing_C3 (data : List Nat) (sub maxSub : Int)
    (cache : Int → Option (List Nat)) (offset length : Int)
    (hsub : 1 ≤ sub) (hoff : 0 ≤ offset) (hlen : 0 < length)
    (hits2 : Int → Option (List Nat))
    (hrun : fetchMissing data sub
      (lastSubrangeOffset (attrsSize data) offset
        (clampedLength (attrsSize data) offset length) sub)
      (lastSubrangeLength (attrsSize data) offset
        (clampedLength (attrsSize data) offset length) sub)
      (alignedOffs (startRange offset sub)
        (endRange offset (clampedLength (attrsSize data) offset length) sub) sub)
      (initialHits cache (alignedOffs (startRange offset sub)
        (endRange offset (clampedLength (attrsSize data) offset length) sub) sub))
      (mergedGaps (missingRanges (initialHits cache
        (alignedOffs (startRange offset sub)
          (endRange offset (clampedLength (attrsSize data) offset length) sub)
          sub))
        (alignedOffs (startRange offset sub)
          (endRange offset (clampedLength (attrsSize data) offset length) sub)
          sub) sub) sub maxSub) = some hits2) :
    ∀ off ∈ alignedOffs (startRange offset sub)
      (endRange offset (clampedLength (attrsSize data) offset length) sub) sub,
      (hits2 off).isSome := by
  have hsize0 : (0 : Int) ≤ attrsSize data := Int.natCast_nonneg _
  obtain ⟨hWs, hW0, hds, hs0, hsoff, hsoff2, hde, hWe, hWe2, hdlast, hlast1,
    hlastsum, hlen0, hlenle, hlastlt⟩ :=
    range_geometry (attrsSize data) offset length sub hsub hoff hlen hsize0
  obtain ⟨hall, hcover⟩ := mergedGaps_spec (initialHits cache
    (alignedOffs (startRange offset sub)
      (endRange offset (clampedLength (attrsSize data) offset length) sub) sub))
    (startRange offset sub)
    (endRange offset (clampedLength (attrsSize data) offset length) sub)
    sub maxSub hsub hds hde
  obtain ⟨hits', hrun', hmono, hcov, _⟩ := fetchMissing_spec data sub
    (startRange offset sub)
    (endRange offset (clampedLength (attrsSize data) offset length) sub)
    (lastSubrangeOffset (attrsSize data) offset
      (clampedLength (attrsSize data) offset length) sub)
    (lastSubrangeLength (attrsSize data) offset
      (clampedLength (attrsSize data) offset length) sub)
    hsub hs0 hds hde hdlast hlast1 hlastsum hlastlt hlenle
    (mergedGaps (missingRanges (initialHits cache
      (alignedOffs (startRange offset sub)
        (endRange offset (clampedLength (attrsSize data) offset length) sub) sub))
      (alignedOffs (startRange offset sub)
        (endRange offset (clampedLength (attrsSize data) offset length) sub) sub)
      sub) sub maxSub)
    (initialHits cache (alignedOffs (startRange offset sub)
      (endRange offset (clampedLength (attrsSize data) offset length) sub) sub))
    hall
  rw [hrun] at hrun'
  have hsame := Option.some_inj.mp hrun'
  subst hsame
  intro off ho
  have hoi := ho
  rw [mem_alignedOffs _ _ _ _ hsub hds hde] at hoi
  obtain ⟨hdo, ho1, ho2⟩ := hoi
  cases hh : initialHits cache (alignedOffs (startRange offset sub)
      (endRange offset (clampedLength (attrsSize data) offset length) sub)
      sub) off with
  | some v =>
    rw [hmono off (by rw [hh]; rfl), hh]
    rfl
  | none =>
    obtain ⟨m, hm, hm1, hm2⟩ := hcover off ho hh
    exact hcov m hm off hdo (by omega) (by omega)

/-- Witness for `fetchMissing_C3`: a fully warm cache, where the fetch is
the no-gap fold and the hits map is the cache's answer. -/
theorem fetchMissing_C3_witness :
    ((initialHits
        (fun o => if o = 0 then some (objSlice (List.range 4) 0 2)
          else if o = 2 then some (objSlice (List.range 4) 2 4) else none)
        (alignedOffs (startRange 0 2)
          (endRange 0 (clampedLength (attrsSize (List.range 4)) 0 4) 2) 2)) 2).isSome :=
  fetchMissing_C3 (List.range 4) 2 3
    (fun o => if o = 0 then some (objSlice (List.range 4) 0 2)
      else if o = 2 then some (objSlice (List.range 4) 2 4) else none)
    0 4 (by decide) (by decide) (by decide) _ rfl 2 (by decide)

/-- C10 (amended): when the offset is at or past the object size, the
clamped length is non-positive and the call still succeeds with an
immediately-EOF reader (empty content) rather than an out-of-range error;
when additionally the aligned window is empty, no subrange keys are
generated and no underlying fetch is issued.  (When the offset falls
inside the object's final partial subrange, a single subrange key is
generated and may be fetched — see the counterexample.) -/
theorem cachedGetRange_C10 (data : List Nat) (sub maxSub : Int)
    (cache : Int → Option (List Nat)) (offset length : Int)
    (hsub : 1 ≤ sub) (hoff : 0 ≤ offset) (hlen : 0 < length)
    (hpast : attrsSize data ≤ offset)
    (hcons : cacheConsistent data sub cache) :
    clampedLength (attrsSize data) offset length ≤ 0 ∧
      (∃ calls, cachedGetRange data sub maxSub cache offset length =
        some ([], calls)) ∧
      (endRange offset (clampedLength (attrsSize data) offset length) sub ≤
          startRange offset sub →
        alignedOffs (startRange offset sub)
            (endRange offset (clampedLength (attrsSize data) offset length) sub)
            sub = [] ∧
          cachedGetRange data sub maxSub cache offset length = some ([], [])) := by
  have hclen : clampedLength (attrsSize data) offset length ≤ 0 := by
    rw [clampedLength]
    split <;> omega
  have hdirect : directRead data offset length = [] := by
    rw [directRead, objSlice, List.drop_eq_nil_of_le, List.take_nil]
    rw [attrsSize] at hpast
    omega
  refine ⟨hclen, ?_, ?_⟩
  · obtain ⟨calls, hcalls⟩ := cachedGetRange_correct data sub maxSub cache
      offset length hsub hoff hlen hcons
    exact ⟨calls, by rw [hcalls, hdirect]⟩
  · intro hwin
    have hoffs : alignedOffs (startRange offset sub)
        (endRange offset (clampedLength (attrsSize data) offset length) sub)
        sub = [] := by
      rw [alignedOffs]
      have h1 : (endRange offset (clampedLength (attrsSize data) offset length)
          sub - startRange offset sub) / sub ≤ 0 := by
        have h2 := Int.ediv_le_ediv (show (0 : Int) < sub by omega)
          (show endRange offset (clampedLength (attrsSize data) offset length)
            sub - startRange offset sub ≤ 0 by omega)
        rwa [Int.zero_ediv] at h2
      rw [show ((endRange offset (clampedLength (attrsSize data) offset length)
          sub - startRange offset sub) / sub).toNat = 0 from by omega]
      rfl
    refine ⟨hoffs, ?_⟩
    simp only [cachedGetRange, hoffs]
    rw [if_neg (by simp [countHits])]
    have hdrain : drainReader sub ([] : List Int)
        (initialHits cache ([] : List Int)) offset
        (clampedLength (attrsSize data) offset length) = some [] := by
      rw [drainReader, drainLoop, if_pos hclen]
    rw [hdrain]
    rfl

/-- Counterexample to C10 as stated: object of size 10, subrange size 4,
`GetRange(10, 1)`.  The offset equals the object size and the clamped
length is 0, yet one subrange key (aligned offset 8, the object's final
partial subrange) is generated, and the engine issues one underlying gap
fetch `[8, 12)` on a cold cache — while still returning success with an
immediately-EOF reader. -/
theorem cachedGetRange_C10_cex :
    attrsSize (List.range 10) ≤ 10 ∧
      clampedLength (attrsSize (List.range 10)) 10 1 ≤ 0 ∧
      alignedOffs (startRange 10 4)
          (endRange 10 (clampedLength (attrsSize (List.range 10)) 10 1) 4) 4 =
        [8] ∧
      cachedGetRange (List.range 10) 4 10 (fun _ => none) 10 1 =
        some ([], [⟨8, 12⟩]) := by
  refine ⟨by decide, by decide, by decide, by decide⟩

/-- Witness for `cachedGetRange_C10` at a concrete aligned-size object. -/
theorem cachedGetRange_C10_witness :
    alignedOffs (startRange 10 5)
        (endRange 10 (clampedLength (attrsSize (List.range 10)) 10 1) 5) 5 =
        [] ∧
      cachedGetRange (List.range 10) 5 2 (fun _ => none) 10 1 =
        some ([], []) :=
  (cachedGetRange_C10 (List.range 10) 5 2 (fun _ => none) 10 1 (by decide)
    (by decide) (by decide) (by decide)
    (fun o b hb => Option.noConfusion hb)).2.2 (by decide)

end CachingBucket
